import Mathlib

/-!
Verification of the obsidian-mcp server's path-safety, tag/frontmatter and
backup-rollback subsystems, as a shallow embedding of the TypeScript source
(src/utils/path.ts, src/utils/tags.ts, src/tools/edit-note/index.ts,
src/tools/get-daily-note-path/index.ts) into Lean 4.

Conventions of the embedding:
  - JavaScript strings are Lean `String`s; most algorithms are written over
    `List Char` (`String.data`) so that proofs can proceed by list induction.
  - `process.platform` and `os.homedir()` are threaded as explicit parameters.
  - async filesystem calls (fs.stat, realpath, child-process probes) are
    oracles carried in an environment structure; pure string inspection is
    embedded fully.
  - thrown `McpError`s become `Except McpError` results.
-/

namespace ObsidianMcp

/-- Error codes of the @modelcontextprotocol SDK that the source throws with. -/
inductive ErrorCode where
  | invalidRequest
  | invalidParams
  | internalError
deriving DecidableEq, Repr

/-- Model of an McpError value: a code and a message string. -/
structure McpError where
  code : ErrorCode
  message : String
deriving DecidableEq, Repr

/-- The two relevant values of process.platform: "win32" and everything else. -/
inductive Platform where
  | win32
  | posix
deriving DecidableEq, Repr

/-! ## JavaScript string primitives over List Char -/

/-- Path separator characters, as in the source's split regex /[\/\\]/. -/
def isSepChar (c : Char) : Bool := c == '/' || c == '\\'

/-- Split a character list at every character satisfying p, keeping empty
pieces, exactly like JavaScript String.prototype.split with a
single-character-class regex. -/
def splitChars (p : Char → Bool) : List Char → List (List Char)
  | [] => [[]]
  | c :: rest =>
    if p c then [] :: splitChars p rest
    else
      match splitChars p rest with
      | [] => [[c]]
      | g :: gs => (c :: g) :: gs

/-- JavaScript s.split(regex) for a character-class regex. -/
def jsSplit (s : String) (p : Char → Bool) : List String :=
  (splitChars p s.data).map String.mk

/-- Index of the first occurrence of pat as a contiguous sublist, like
JavaScript String.prototype.indexOf (here on char lists). -/
def idxOfSub (pat : List Char) : List Char → Option Nat
  | [] => if pat.isEmpty then some 0 else none
  | c :: rest =>
    if pat.isPrefixOf (c :: rest) then some 0
    else
      match idxOfSub pat rest with
      | some n => some (n + 1)
      | none => none

/-- Substring containment, like JavaScript String.prototype.includes. -/
def containsSub (s pat : List Char) : Bool := (idxOfSub pat s).isSome

/-- JavaScript s.includes(pat). -/
def jsIncludes (s pat : String) : Bool := containsSub s.data pat.data

/-- JavaScript s.toLowerCase(), written over the character list so that it
reduces inside the kernel. -/
def jsToLower (s : String) : String := String.mk (s.data.map Char.toLower)

/-- JavaScript s.startsWith(pat), written over character lists so that it
reduces inside the kernel. -/
def jsStartsWith (s pat : String) : Bool := pat.data.isPrefixOf s.data

/-- JavaScript s.endsWith(pat), written over character lists. -/
def jsEndsWith (s pat : String) : Bool := pat.data.isSuffixOf s.data

/-- Whether the list has two adjacent path separator characters, like the
source's test /[\/\\]{2,}/. -/
def hasConsecSeps : List Char → Bool
  | a :: b :: rest => (isSepChar a && isSepChar b) || hasConsecSeps (b :: rest)
  | _ => false

/-! ## checkPathCharacters (src/utils/path.ts lines 16-127) -/

/-- Windows reserved device names, lowercased (regex con|prn|aux|nul|com1-9|lpt1-9). -/
def winReservedBase : List String :=
  ["con", "prn", "aux", "nul",
   "com1", "com2", "com3", "com4", "com5", "com6", "com7", "com8", "com9",
   "lpt1", "lpt2", "lpt3", "lpt4", "lpt5", "lpt6", "lpt7", "lpt8", "lpt9"]

/-- Case-insensitive test of /^(con|prn|aux|nul|com[1-9]|lpt[1-9])(\..*)?$/i. -/
def isWinReservedName (part : String) : Bool :=
  let lower := jsToLower part
  winReservedBase.any (fun n => lower == n || jsStartsWith lower (n ++ "."))

/-- Test of /[<>:"|?*]/ on one path component. -/
def hasWinInvalidChar (part : String) : Bool :=
  part.data.any (fun c =>
    c == '<' || c == '>' || c == ':' || c == '"' || c == '|' || c == '?' || c == '*')

/-- Test of /^[A-Za-z]:[\/\\]/ (drive letter followed by a separator). -/
def hasDrivePrefix (s : String) : Bool :=
  match s.data with
  | a :: b :: c :: _ => a.isAlpha && b == ':' && isSepChar c
  | _ => false

/-- Test of /^\\\\.\\/ — two backslashes, any one character, a backslash. -/
def isDevicePath (s : String) : Bool :=
  match s.data with
  | '\\' :: '\\' :: _ :: '\\' :: _ => true
  | _ => false

/-- Test of /^[A-Za-z]:\\?$/ (drive-root-only path). -/
def isDriveRootOnly (s : String) : Bool :=
  match s.data with
  | [a, b] => a.isAlpha && b == ':'
  | [a, b, c] => a.isAlpha && b == ':' && c == '\\'
  | _ => false

/-- Non-printable control characters: /[\x01-\x1F\x7F]/. -/
def isCtlChar (c : Char) : Bool :=
  (1 ≤ c.toNat && c.toNat ≤ 31) || c.toNat == 127

/-- The Windows-specific component checks of checkPathCharacters: reserved
device names, then <>:"|?* in components past the drive/server part. -/
def winComponentChecks (vaultPath : String) : Option String :=
  let pathParts := jsSplit vaultPath isSepChar
  if pathParts.any isWinReservedName then
    some "Contains Windows reserved names (CON, PRN, etc.)"
  else if hasDrivePrefix vaultPath then
    let allComponents := jsSplit vaultPath isSepChar
    let startIdx : Nat :=
      if jsIncludes (allComponents.headD "") ":" then 1
      else if allComponents.headD "" == "" && allComponents.length > 2 then 3
      else 0
    if (allComponents.drop startIdx).any hasWinInvalidChar then
      some "Contains characters not allowed on Windows (<>:\"|?*)"
    else none
  else if (jsSplit vaultPath isSepChar).any hasWinInvalidChar then
    some "Contains characters not allowed on Windows (<>:\"|?*)"
  else none

/-- Tail of checkPathCharacters: the checks that follow the
relative-component check (null byte, control chars, Windows-specific
component checks, U+FFFD, surrounding whitespace, consecutive separators),
still in source order. -/
def checkPathCharactersTail (platform : Platform) (vaultPath : String) : Option String :=
  if platform ≠ Platform.win32 && vaultPath.data.contains (Char.ofNat 0) then
    some "Contains null characters, which are not allowed on Unix"
  else if vaultPath.data.any isCtlChar then
    some "Contains non-printable characters"
  else
    match (if platform = Platform.win32 then winComponentChecks vaultPath else none) with
    | some m => some m
    | none =>
      if vaultPath.data.contains (Char.ofNat 0xFFFD) then
        some "Contains invalid Unicode characters"
      else if vaultPath ≠ vaultPath.trim then
        some "Contains leading or trailing whitespace"
      else if hasConsecSeps vaultPath.data then
        some "Contains consecutive path separators"
      else none

/-- Embedding of checkPathCharacters: pure inspection of a path string,
returning a rejection reason or none, with checks in source order. -/
def checkPathCharacters (platform : Platform) (vaultPath : String) : Option String :=
  let maxPathLength : Nat := if platform = Platform.win32 then 260 else 4096
  if vaultPath.length > maxPathLength then
    some s!"Path exceeds maximum length ({maxPathLength} characters)"
  else
    let components := jsSplit vaultPath isSepChar
    match components.find? (fun c => c.length > 255) with
    | some longComponent =>
      some s!"Directory/file name too long: \"{longComponent.take 50}...\""
    | none =>
      if platform = Platform.win32 && isDevicePath vaultPath then
        some "Device paths are not allowed"
      else if platform = Platform.win32 && isDriveRootOnly vaultPath then
        some "Cannot use drive root directory"
      else if platform ≠ Platform.win32 && vaultPath == "/" then
        some "Cannot use filesystem root directory"
      else if components.contains ".." || components.contains "." then
        some "Path cannot contain relative components (. or ..)"
      else
        checkPathCharactersTail platform vaultPath

/-! ## checkSuspiciousPath, checkPathSafety, validateVaultPath
(src/utils/path.ts lines 329-383, 476-517, 536-543) -/

/-- System directory prefixes denylisted by checkSuspiciousPath. -/
def systemDirs : List String :=
  ["/bin", "/sbin", "/usr/bin", "/usr/sbin", "/etc", "/var", "/tmp", "/dev", "/sys",
   "C:\\Windows", "C:\\Program Files", "C:\\System32", "C:\\Users\\All Users",
   "C:\\ProgramData"]

/-- Embedding of checkSuspiciousPath; os.homedir() is passed explicitly.
The source function is async but performs only pure string inspection. -/
def checkSuspiciousPath (homedir : String) (platform : Platform)
    (vaultPath : String) : Option String :=
  if (jsSplit vaultPath isSepChar).any
      (fun part => jsStartsWith part "." && part != ".obsidian") then
    some "Contains hidden directories"
  else if systemDirs.any (fun dir => jsStartsWith (jsToLower vaultPath) (jsToLower dir)) then
    some "Points to a system directory"
  else if vaultPath == homedir then
    some "Points to home directory root"
  else if vaultPath.length > 255 then
    some "Path is too long (maximum 255 characters)"
  else
    match checkPathCharacters platform vaultPath with
    | some charIssue => some charIssue
    | none => none

/-- Result of an fs.stat call, as observed by checkPathSafety. -/
inductive StatRes where
  | dir
  | file
  | enoent
  | failMsg (msg : String)
deriving DecidableEq, Repr

/-- Environment of ambient effects used by the async validators: the fs.stat
oracle, the eventual result of checkLocalPath (which resolves symlinks and
shells out to drive/mount-type probes, so it is represented by its result),
os.homedir() and process.platform. -/
structure FSEnv where
  stat : String → StatRes
  localCheck : String → Option String
  homedir : String
  platform : Platform

/-- Embedding of checkPathSafety: character check, stat, locality check,
suspicious-location check, first failure short-circuiting. -/
def checkPathSafety (env : FSEnv) (vaultPath : String) : Option String :=
  if vaultPath.length = 0 then
    some "Invalid path provided to checkPathSafety"
  else
    match checkPathCharacters env.platform vaultPath with
    | some characterCheck => some characterCheck
    | none =>
      match env.stat vaultPath with
      | StatRes.file => some "Path is not a directory"
      | StatRes.enoent => some "Path does not exist"
      | StatRes.failMsg m => some s!"Failed to access path info: {m}"
      | StatRes.dir =>
        match env.localCheck vaultPath with
        | some localIssue => some localIssue
        | none =>
          match checkSuspiciousPath env.homedir env.platform vaultPath with
          | some suspiciousCheck => some suspiciousCheck
          | none => none

/-- A JavaScript Promise object holding the eventual value of an async call. -/
structure JSPromise (α : Type) where
  result : α

/-- JavaScript truthiness of a Promise object: an object value is always
truthy, regardless of the value it will eventually resolve to. -/
def JSPromise.isTruthyJS {α : Type} (_p : JSPromise α) : Bool := true

/-- The un-awaited call `checkPathSafety(targetPath)` as it appears in
validateVaultPath: it yields a Promise object, not the resolved value. -/
def checkPathSafetyPromise (env : FSEnv) (targetPath : String) :
    JSPromise (Option String) :=
  JSPromise.mk (checkPathSafety env targetPath)

/-- Embedding of validateVaultPath. The source tests
`if (!checkPathSafety(targetPath))` without awaiting the async call, so the
branch condition is the truthiness of the Promise object itself. -/
def validateVaultPath (env : FSEnv) (vaultPath targetPath : String) :
    Except McpError Unit :=
  if !(checkPathSafetyPromise env targetPath).isTruthyJS then
    Except.error (McpError.mk ErrorCode.invalidRequest
      s!"Path must be within the vault directory. Path: {targetPath}, Vault: {vaultPath}")
  else
    Except.ok ()

/-- A concrete effect environment used to evaluate the validators on the
failing input: every stat sees a directory, locality checks pass. -/
def demoFSEnv : FSEnv :=
  FSEnv.mk (fun _ => StatRes.dir) (fun _ => none) "/home/user" Platform.posix

/-! ## Tag validation and normalization (src/utils/tags.ts lines 81-108) -/

/-- JavaScript tag.replace(/^#/, ""): strip a single leading hash. -/
def stripHash (tag : String) : String :=
  match tag.data with
  | '#' :: rest => String.mk rest
  | _ => tag

/-- The character class [a-zA-Z0-9]. -/
def isTagAlnum (c : Char) : Bool :=
  ('a' ≤ c && c ≤ 'z') || ('A' ≤ c && c ≤ 'Z') || ('0' ≤ c && c ≤ '9')

/-- Embedding of validateTag: strip a leading #, reject the empty string,
then test TAG_REGEX = /^[a-zA-Z0-9]+(\/[a-zA-Z0-9]+)*$/, i.e. nonempty
all-alphanumeric segments separated by single slashes. -/
def validateTag (tag : String) : Bool :=
  let tag := stripHash tag
  if tag == "" then false
  else
    (jsSplit tag (fun c => c == '/')).all
      (fun seg => seg != "" && seg.data.all isTagAlnum)

/-- One pass of the global replacement /([a-z0-9])([A-Z])/g with "$1-$2":
the regex engine consumes both matched characters and continues after them. -/
def kebabChars : List Char → List Char
  | a :: b :: rest =>
    if (a.isLower || a.isDigit) && b.isUpper then a :: '-' :: b :: kebabChars rest
    else a :: kebabChars (b :: rest)
  | l => l

/-- Embedding of normalizeTag: strip a leading #; when normalizing, convert
each slash-separated segment from camelCase to kebab-case and lowercase it. -/
def normalizeTag (tag : String) (normalize : Bool) : String :=
  let tag := stripHash tag
  if !normalize then tag
  else
    String.intercalate "/" ((jsSplit tag (fun c => c == '/')).map
      (fun part => jsToLower (String.mk (kebabChars part.data))))

/-! ## Frontmatter model and tag mutation (src/utils/tags.ts lines 238-341) -/

/-- YAML-compatible values held in a frontmatter mapping. -/
inductive Yaml where
  | str (s : String)
  | num (n : Int)
  | boolean (b : Bool)
  | nil
  | arr (xs : List Yaml)
deriving Repr

mutual

/-- Decidable equality of Yaml values (the nested list keeps the derive
handler from producing this). -/
def Yaml.decEq : (a b : Yaml) → Decidable (a = b)
  | .str a, .str b => decidable_of_iff (a = b) (by simp)
  | .num a, .num b => decidable_of_iff (a = b) (by simp)
  | .boolean a, .boolean b => decidable_of_iff (a = b) (by simp)
  | .nil, .nil => isTrue rfl
  | .arr xs, .arr ys =>
    match Yaml.decEqList xs ys with
    | isTrue h => isTrue (by rw [h])
    | isFalse h => isFalse (fun hh => h (by injection hh))
  | .str _, .num _ => isFalse (fun h => Yaml.noConfusion h)
  | .str _, .boolean _ => isFalse (fun h => Yaml.noConfusion h)
  | .str _, .nil => isFalse (fun h => Yaml.noConfusion h)
  | .str _, .arr _ => isFalse (fun h => Yaml.noConfusion h)
  | .num _, .str _ => isFalse (fun h => Yaml.noConfusion h)
  | .num _, .boolean _ => isFalse (fun h => Yaml.noConfusion h)
  | .num _, .nil => isFalse (fun h => Yaml.noConfusion h)
  | .num _, .arr _ => isFalse (fun h => Yaml.noConfusion h)
  | .boolean _, .str _ => isFalse (fun h => Yaml.noConfusion h)
  | .boolean _, .num _ => isFalse (fun h => Yaml.noConfusion h)
  | .boolean _, .nil => isFalse (fun h => Yaml.noConfusion h)
  | .boolean _, .arr _ => isFalse (fun h => Yaml.noConfusion h)
  | .nil, .str _ => isFalse (fun h => Yaml.noConfusion h)
  | .nil, .num _ => isFalse (fun h => Yaml.noConfusion h)
  | .nil, .boolean _ => isFalse (fun h => Yaml.noConfusion h)
  | .nil, .arr _ => isFalse (fun h => Yaml.noConfusion h)
  | .arr _, .str _ => isFalse (fun h => Yaml.noConfusion h)
  | .arr _, .num _ => isFalse (fun h => Yaml.noConfusion h)
  | .arr _, .boolean _ => isFalse (fun h => Yaml.noConfusion h)
  | .arr _, .nil => isFalse (fun h => Yaml.noConfusion h)

/-- Decidable equality of Yaml lists. -/
def Yaml.decEqList : (xs ys : List Yaml) → Decidable (xs = ys)
  | [], [] => isTrue rfl
  | [], _ :: _ => isFalse (fun h => List.noConfusion h)
  | _ :: _, [] => isFalse (fun h => List.noConfusion h)
  | x :: xs, y :: ys =>
    match Yaml.decEq x y with
    | isFalse h => isFalse (fun hh => h (List.head_eq_of_cons_eq hh))
    | isTrue h1 =>
      match Yaml.decEqList xs ys with
      | isFalse h => isFalse (fun hh => h (List.tail_eq_of_cons_eq hh))
      | isTrue h2 => isTrue (by rw [h1, h2])

end

instance : DecidableEq Yaml := Yaml.decEq

instance : BEq Yaml := ⟨fun a b => decide (a = b)⟩

instance : LawfulBEq Yaml where
  eq_of_beq h := of_decide_eq_true h
  rfl := by simp [BEq.beq]

/-- A frontmatter mapping: insertion-ordered key/value pairs. JavaScript
object keys are unique, so these lists never repeat a key. -/
abbrev Frontmatter := List (String × Yaml)

/-- JavaScript property read frontmatter[key]. -/
def fmGet (fm : Frontmatter) (key : String) : Option Yaml :=
  match fm.find? (fun kv => kv.fst == key) with
  | some kv => some kv.snd
  | none => none

/-- JavaScript property assignment frontmatter[key] = v: overwrite in place,
or append a new key at the end. -/
def fmSet : Frontmatter → String → Yaml → Frontmatter
  | [], key, v => [(key, v)]
  | (k, w) :: rest, key, v =>
    if k == key then (k, v) :: rest else (k, w) :: fmSet rest key v

/-- JavaScript delete frontmatter[key] (keys are unique, so filtering is
exact). -/
def fmDelete (fm : Frontmatter) (key : String) : Frontmatter :=
  fm.filter (fun kv => kv.fst != key)

mutual

/-- String(x) as used by the default Array.prototype.sort comparator. -/
def jsStringOfYaml : Yaml → String
  | Yaml.str s => s
  | Yaml.num n => toString n
  | Yaml.boolean b => if b then "true" else "false"
  | Yaml.nil => "null"
  | Yaml.arr xs => String.intercalate "," (jsStringOfYamlList xs)

/-- String(x) of every element of a list. -/
def jsStringOfYamlList : List Yaml → List String
  | [] => []
  | y :: ys => jsStringOfYaml y :: jsStringOfYamlList ys

end

/-- The order used by the default sort comparator: compare String(x). -/
def jsLe (a b : Yaml) : Prop := jsStringOfYaml a ≤ jsStringOfYaml b

instance : DecidableRel jsLe := fun a b =>
  inferInstanceAs (Decidable (jsStringOfYaml a ≤ jsStringOfYaml b))

instance : IsTotal Yaml jsLe :=
  ⟨fun a b => le_total (jsStringOfYaml a) (jsStringOfYaml b)⟩

instance : IsTrans Yaml jsLe := ⟨fun _ _ _ => le_trans⟩

/-- JavaScript Array.from(set).sort() with the default comparator: a stable
sort by String(x); elements coming from a Set are pairwise distinct. -/
def jsSortYaml (l : List Yaml) : List Yaml := List.insertionSort jsLe l

/-- JavaScript set.add(v): append if not already present (SameValueZero on
the string elements these sets actually hold). -/
def jsSetAdd (l : List Yaml) (v : Yaml) : List Yaml :=
  if l.contains v then l else l ++ [v]

/-- JavaScript new Set(list): dedup preserving first-insertion order. -/
def jsSetOfList (l : List Yaml) : List Yaml := l.foldl jsSetAdd []

/-- The source's existingTagsArray snippet, shared by both mutators: a string
tags field becomes a one-element array, an array field is used as is, any
other shape yields the empty array. -/
def tagsFieldAsArray (frontmatter : Frontmatter) : List Yaml :=
  match fmGet frontmatter "tags" with
  | some (Yaml.str s) => [Yaml.str s]
  | some (Yaml.arr xs) => xs
  | _ => []

/-- The validate-and-insert loop of addTagsToFrontmatter: throw at the first
tag that fails validateTag, otherwise add the normalized tag to the set. -/
def addTagsLoop (existingTags : List Yaml) (newTags : List String)
    (normalize : Bool) : Except McpError (List Yaml) :=
  match newTags with
  | [] => Except.ok existingTags
  | tag :: rest =>
    if !validateTag tag then
      Except.error (McpError.mk ErrorCode.invalidParams s!"Invalid tag format: {tag}")
    else
      addTagsLoop (jsSetAdd existingTags (Yaml.str (normalizeTag tag normalize))) rest normalize

/-- Embedding of addTagsToFrontmatter. The source mutates the mapping in
place; here the final mapping is returned next to the thrown-or-ok outcome,
and on a throw the mapping is the untouched input — faithful because the
source assigns frontmatter.tags only after the whole loop has run. -/
def addTagsToFrontmatter (frontmatter : Frontmatter) (newTags : List String)
    (normalize : Bool) : Except McpError Unit × Frontmatter :=
  match addTagsLoop (jsSetOfList (tagsFieldAsArray frontmatter)) newTags normalize with
  | Except.error e => (Except.error e, frontmatter)
  | Except.ok tags =>
    match tags with
    | [] => (Except.ok (), fmDelete frontmatter "tags")
    | [t] => (Except.ok (), fmSet frontmatter "tags" t)
    | ts => (Except.ok (), fmSet frontmatter "tags" (Yaml.arr (jsSortYaml ts)))

/-- Options bag of removeTagsFromFrontmatter; the call-site default is
normalize = true, patterns = []. -/
structure RemoveTagsOptions where
  normalize : Bool
  patterns : List String
deriving Repr

/-- A TagChange report entry. -/
structure TagChange where
  tag : String
  location : String
  line : Option Nat
  context : Option String
deriving DecidableEq, Repr

/-- The report returned by removeTagsFromFrontmatter. -/
structure RemoveReport where
  removed : List TagChange
  preserved : List TagChange
deriving DecidableEq, Repr

/-- Matcher for the regexes the source builds from glob patterns ("^" ++
pattern with "*" turned into ".*" and "/" into "\/" ++ "$"): "." matches any
character, a backslash escapes the next character, everything else is a
literal. -/
def globRegexMatch : List Char → List Char → Bool
  | [], s => s.isEmpty
  | '.' :: '*' :: ps, s =>
    globRegexMatch ps s ||
      (match s with
       | [] => false
       | _ :: rest => globRegexMatch ('.' :: '*' :: ps) rest)
  | '.' :: ps, s =>
    (match s with
     | [] => false
     | _ :: rest => globRegexMatch ps rest)
  | '\\' :: c :: ps, s =>
    (match s with
     | d :: rest => c == d && globRegexMatch ps rest
     | [] => false)
  | c :: ps, s =>
    (match s with
     | d :: rest => c == d && globRegexMatch ps rest
     | [] => false)
termination_by ps s => (ps.length, s.length)

/-- The regex source string the glob pattern is compiled to (between the
anchors). -/
def globToRegex (pattern : String) : List Char :=
  pattern.data.flatMap (fun c =>
    if c == '*' then ['.', '*'] else if c == '/' then ['\\', '/'] else [c])

/-- Embedding of matchesTagPattern. -/
def matchesTagPattern (pattern tag : String) : Bool :=
  globRegexMatch (globToRegex pattern) tag.data

/-- Embedding of isParentTag. -/
def isParentTag (parentTag childTag : String) : Bool :=
  jsStartsWith childTag (parentTag ++ "/")

/-- Reads a tags array whose entries are all strings; a non-string entry
makes the source throw a TypeError when normalizeTag calls .replace on it. -/
def asStrings : List Yaml → Option (List String)
  | [] => some []
  | Yaml.str s :: rest => (asStrings rest).map (fun l => s :: l)
  | _ => none

/-- The filter predicate of removeTagsFromFrontmatter: remove when the
normalized tag is in the normalized removal set or matches a pattern. -/
def removeShouldRemove (tagsToRemove : List String) (options : RemoveTagsOptions)
    (tag : String) : Bool :=
  let normalizedTag := normalizeTag tag options.normalize
  (tagsToRemove.map (fun t => normalizeTag t options.normalize)).contains normalizedTag ||
    options.patterns.any (fun p => globRegexMatch (globToRegex p) normalizedTag.data)

/-- The remainingTags local of removeTagsFromFrontmatter (none when a
non-string entry would make the source throw). -/
def removeRemaining (frontmatter : Frontmatter) (tagsToRemove : List String)
    (options : RemoveTagsOptions) : Option (List String) :=
  match asStrings (tagsFieldAsArray frontmatter) with
  | none => none
  | some currentTags =>
    some (currentTags.filter (fun tag => !removeShouldRemove tagsToRemove options tag))

/-- Embedding of removeTagsFromFrontmatter: filter the current tags, report
removed/preserved, delete the field when empty and otherwise store the
sorted remaining array (always an array, even for a single tag). -/
def removeTagsFromFrontmatter (frontmatter : Frontmatter) (tagsToRemove : List String)
    (options : RemoveTagsOptions) : Except Unit (RemoveReport × Frontmatter) :=
  match asStrings (tagsFieldAsArray frontmatter) with
  | none => Except.error ()
  | some currentTags =>
    let removed := (currentTags.filter
        (fun t => removeShouldRemove tagsToRemove options t)).map
      (fun t => TagChange.mk t "frontmatter" none none)
    let preserved := (currentTags.filter
        (fun t => !removeShouldRemove tagsToRemove options t)).map
      (fun t => TagChange.mk t "frontmatter" none none)
    let remainingTags := currentTags.filter
      (fun t => !removeShouldRemove tagsToRemove options t)
    Except.ok (RemoveReport.mk removed preserved,
      if remainingTags.length = 0 then fmDelete frontmatter "tags"
      else
        fmSet frontmatter "tags"
          (Yaml.arr ((List.insertionSort (fun a b => a ≤ b) remainingTags).map Yaml.str)))

/-! ## parseNote and stringifyNote (src/utils/tags.ts lines 113-163) -/

/-- JavaScript ASCII whitespace for String.prototype.trim (the full JS set
also trims some Unicode spaces, which the notes in the claims never use). -/
def jsIsSpace (c : Char) : Bool :=
  c == ' ' || c == '\t' || c == '\n' || c == '\r' || c == '\x0b' || c == '\x0c'

/-- JavaScript s.trim(). -/
def jsTrim (s : String) : String :=
  String.mk (((s.data.dropWhile jsIsSpace).reverse.dropWhile jsIsSpace).reverse)

/-- The external yaml package, as the pair of functions the source calls:
parseYaml (null result modelled as Except.ok none, a thrown parse error as
Except.error) and stringifyYaml. -/
structure YamlLib where
  parse : String → Except Unit (Option Frontmatter)
  stringify : Frontmatter → String

/-- The ParsedNote record of the source. -/
structure ParsedNote where
  frontmatter : Frontmatter
  content : String
  hasFrontmatter : Bool
deriving DecidableEq, Repr

/-- Consume the `\r?\n` of the frontmatter regexes: with backtracking, a CR
is consumed only when an LF follows it. -/
def dropCRLF : List Char → Option (List Char)
  | '\r' :: '\n' :: rest => some rest
  | '\n' :: rest => some rest
  | _ => none

/-- Consume the trailing `\r?\n?` greedily. -/
def dropOptCROptLF : List Char → List Char
  | '\r' :: '\n' :: rest => rest
  | '\r' :: rest => rest
  | '\n' :: rest => rest
  | l => l

/-- Whether the closing delimiter `\r?\n---` matches at this position; when
it does, return the suffix after the three dashes. -/
def delimAt : List Char → Option (List Char)
  | '\r' :: '\n' :: '-' :: '-' :: '-' :: rest => some rest
  | '\n' :: '-' :: '-' :: '-' :: rest => some rest
  | _ => none

/-- The lazy scan of `([\s\S]*?)\r?\n---`: the shortest prefix followed by a
closing delimiter, together with the suffix after the delimiter. -/
def findDelim : List Char → Option (List Char × List Char)
  | [] => none
  | c :: rest =>
    match delimAt (c :: rest) with
    | some after => some ([], after)
    | none =>
      match findDelim rest with
      | some (g1, r) => some (c :: g1, r)
      | none => none

/-- The match of emptyFrontmatterRegex = `^---\r?\n---\r?\n?([\s\S]*)$`,
returning capture group 1. -/
def matchEmptyFM : List Char → Option (List Char)
  | '-' :: '-' :: '-' :: rest =>
    (match dropCRLF rest with
     | none => none
     | some rest2 =>
       match rest2 with
       | '-' :: '-' :: '-' :: rest3 => some (dropOptCROptLF rest3)
       | _ => none)
  | _ => none

/-- The match of frontmatterRegex =
`^---\r?\n([\s\S]*?)\r?\n---\r?\n?([\s\S]*)$`, returning captures 1 and 2. -/
def matchFMSplit : List Char → Option (List Char × List Char)
  | '-' :: '-' :: '-' :: rest =>
    (match dropCRLF rest with
     | none => none
     | some body =>
       match findDelim body with
       | none => none
       | some (g1, after) => some (g1, dropOptCROptLF after))
  | _ => none

/-- Embedding of parseNote: try the empty-frontmatter regex, then the
general frontmatter regex, then fall back to no-frontmatter; malformed YAML
raises InvalidParams. A null parse result becomes the empty mapping
(`frontmatter || \x7b\x7d`). -/
def parseNote (lib : YamlLib) (content : String) : Except McpError ParsedNote :=
  match matchEmptyFM content.data with
  | some rest => Except.ok (ParsedNote.mk [] (String.mk rest) true)
  | none =>
    match matchFMSplit content.data with
    | none => Except.ok (ParsedNote.mk [] content false)
    | some (g1, g2) =>
      match lib.parse (String.mk g1) with
      | Except.error _ =>
        Except.error (McpError.mk ErrorCode.invalidParams "Invalid frontmatter YAML format")
      | Except.ok fmOpt =>
        Except.ok (ParsedNote.mk (fmOpt.getD []) (String.mk g2) true)

/-- Embedding of stringifyNote: emit the body alone when there is no (or an
empty) frontmatter mapping, otherwise the trimmed YAML between delimiters, a
blank line, and the trimmed body. -/
def stringifyNote (lib : YamlLib) (parsed : ParsedNote) : String :=
  if !parsed.hasFrontmatter || parsed.frontmatter.isEmpty then parsed.content
  else
    "---\n" ++ jsTrim (lib.stringify parsed.frontmatter) ++ "\n---\n\n" ++ jsTrim parsed.content

/-- Whether the list contains an LF immediately followed by a dash — the
shape that would let a closing-delimiter match start inside the YAML block. -/
def hasNLDash : List Char → Bool
  | '\n' :: '-' :: _ => true
  | _ :: rest => hasNLDash rest
  | [] => false

/-- Modelled from the spec: the external yaml package's serializer,
restricted to flat mappings (each key on one `key: value` line, values
rendered with String(x)); used only to instantiate the YamlLib parameter of
parseNote and stringifyNote on concrete inputs. -/
def miniYamlStringify (fm : Frontmatter) : String :=
  String.intercalate "\n" (fm.map (fun kv => kv.fst ++ ": " ++ jsStringOfYaml kv.snd))

/-- Modelled from the spec: parse one `key: value` line as a string value. -/
def miniYamlParseLine (line : String) : Option (String × Yaml) :=
  match idxOfSub [':', ' '] line.data with
  | none => none
  | some i => some (String.mk (line.data.take i), Yaml.str (String.mk (line.data.drop (i + 2))))

/-- Modelled from the spec: the external yaml package's parser, restricted
to flat string-valued mappings; the empty document parses to null. -/
def miniYamlParse (s : String) : Except Unit (Option Frontmatter) :=
  if s == "" then Except.ok none
  else
    let parsed := (jsSplit s (fun c => c == '\n')).map miniYamlParseLine
    if parsed.any (fun x => x.isNone) then Except.error ()
    else Except.ok (some (parsed.map (fun x => x.getD ("", Yaml.nil))))

/-- The concrete YamlLib instance built from the two modelled functions. -/
def miniYamlLib : YamlLib := YamlLib.mk miniYamlParse miniYamlStringify

/-! ## extractTags (src/utils/tags.ts lines 168-233) -/

/-- The backtick character (code point 96). -/
def backtick : Char := Char.ofNat 96

/-- The regex word class \w = [A-Za-z0-9_]. -/
def isWordChar (c : Char) : Bool := isTagAlnum c || c == '_'

/-- The tag body class [a-zA-Z0-9/_-]. -/
def isTagBodyChar (c : Char) : Bool :=
  isTagAlnum c || c == '/' || c == '_' || c == '-'

/-- The global scan of TAG_PATTERN =
(?<![\w`])#([a-zA-Z0-9/_-]+)(?![a-zA-Z0-9/_-]): at each position where a
hash is not preceded by a word character or backtick and is followed by at
least one tag-body character, emit the match (hash plus the maximal run) and
continue after it; prev is the character before the current position. The
recursion is fuel-driven (each step consumes at least one character) so the
definition evaluates inside the kernel. -/
def tagScanAux (prev : Option Char) : Nat → List Char → List (List Char)
  | _, [] => []
  | 0, _ => []
  | fuel + 1, c :: rest =>
    if c == '#' &&
        (match prev with
         | some p => !(isWordChar p || p == backtick)
         | none => true) then
      let run := rest.takeWhile isTagBodyChar
      if run.isEmpty then tagScanAux (some '#') fuel rest
      else ('#' :: run) :: tagScanAux (some (run.getLastD '#')) fuel (rest.dropWhile isTagBodyChar)
    else
      tagScanAux (some c) fuel rest

/-- searchLine.match(TAG_PATTERN): the list of matched substrings. -/
def tagScan (l : List Char) : List (List Char) := tagScanAux none l.length l

/-- The inner capture tagMatch.match(/#([a-zA-Z0-9/_-]+)/)?.[1]: the run
after the first productive hash. -/
def innerTagCapture : List Char → Option (List Char)
  | [] => none
  | '#' :: rest =>
    let run := rest.takeWhile isTagBodyChar
    if run.isEmpty then innerTagCapture rest else some run
  | _ :: rest => innerTagCapture rest

/-- JavaScript set.add(tag) on a string set. -/
def jsSetAddStr (l : List String) (v : String) : List String :=
  if l.contains v then l else l ++ [v]

/-- The per-match body of the source's forEach: recover the capture, find
the first occurrence of the matched text with indexOf, skip it when that
occurrence directly follows a backtick, otherwise add the captured tag. -/
def tagMatchStep (searchLine : List Char) (tags : List String) (tagMatch : List Char) :
    List String :=
  match innerTagCapture tagMatch with
  | none => tags
  | some tag =>
    match idxOfSub tagMatch searchLine with
    | some index =>
      if index ≠ 0 ∧ searchLine.get? (index - 1) = some backtick then tags
      else jsSetAddStr tags (String.mk tag)
    | none => tags

/-- Process all TAG_PATTERN matches of one searched line. -/
def lineAcceptedTags (searchLine : List Char) (tags0 : List String) : List String :=
  (tagScan searchLine).foldl (tagMatchStep searchLine) tags0

/-- The loop state of extractTags: the accumulated tag set, the two scanner
flags, and (as a ghost field for specification) the searchLine values that
were actually scanned for tags. -/
structure ExtractState where
  tags : List String
  inCodeBlock : Bool
  inHtmlComment : Bool
  searched : List (List Char)
deriving Repr

/-- The control flow of one extractTags loop iteration: leave a still-open
HTML comment, or cut the line at a comment close, toggle the code fence on
a line whose trimmed text starts with three backticks, and compute the
searchLine to scan (none when the line is skipped) plus the next two
scanner flags. -/
def extractTagsStepCore (inCodeBlock0 inHtmlComment0 : Bool) (line : String) :
    Option (List Char) × Bool × Bool :=
  let (currentLine, processLine, inHtmlComment) :=
    if inHtmlComment0 then
      if jsIncludes line "-->" then
        (String.mk (line.data.drop ((idxOfSub ['-', '-', '>'] line.data).getD 0 + 3)),
         true, false)
      else (line, false, true)
    else (line, true, inHtmlComment0)
  let (inCodeBlock, processLine) :=
    if processLine && jsStartsWith (jsTrim currentLine) "```" then (!inCodeBlock0, false)
    else (inCodeBlock0, processLine)
  if processLine && !inCodeBlock then
    let (searchLine, inHtmlComment) :=
      if jsIncludes currentLine "<!--" then
        let i := (idxOfSub ['<', '!', '-', '-'] currentLine.data).getD 0
        (String.mk (currentLine.data.take i),
         if !(containsSub (currentLine.data.drop i) ['-', '-', '>']) then true
         else inHtmlComment)
      else (currentLine, inHtmlComment)
    (some searchLine.data, inCodeBlock, inHtmlComment)
  else (none, inCodeBlock, inHtmlComment)

/-- One iteration of the extractTags line loop: when the core control flow
yields a searchLine, scan it for tags and record it; otherwise only the
scanner flags change. -/
def extractTagsStep (st : ExtractState) (line : String) : ExtractState :=
  match extractTagsStepCore st.inCodeBlock st.inHtmlComment line with
  | (none, cb, hc) => ExtractState.mk st.tags cb hc st.searched
  | (some sl, cb, hc) =>
    ExtractState.mk (lineAcceptedTags sl st.tags) cb hc (st.searched ++ [sl])

/-- Embedding of extractTags: fold the line loop over content.split("\n")
and return the accumulated set in insertion order (Array.from(tags)). -/
def extractTags (content : String) : List String :=
  ((jsSplit content (fun c => c == '\n')).foldl extractTagsStep
    (ExtractState.mk [] false false [])).tags

/-- The searchLine values extractTags actually scans: the lines outside
fenced code blocks and HTML comments, truncated at comment boundaries. -/
def searchedLines (content : String) : List (List Char) :=
  ((jsSplit content (fun c => c == '\n')).foldl extractTagsStep
    (ExtractState.mk [] false false [])).searched

/-! ## Node's path.posix module (modelled), the repo's normalizePath,
isParentPath and checkPathOverlap (src/utils/path.ts lines 391-468, 585-648).
The server runs on a POSIX platform, so Node's path module is embedded in
its posix variant; process.cwd() is threaded as an explicit absolute cwd. -/

/-- JavaScript array.join(sep). -/
def jsJoin (sep : String) : List String → String
  | [] => ""
  | [x] => x
  | x :: rest => x ++ sep ++ jsJoin sep rest

/-- Node's normalizeString segment pass: drop empty and "." segments, pop on
".." (or keep it, for relative paths already above the root). -/
def normSegsAux (allowAboveRoot : Bool) (acc : List String) : List String → List String
  | [] => acc
  | seg :: rest =>
    if seg == "" || seg == "." then normSegsAux allowAboveRoot acc rest
    else if seg == ".." then
      match acc.getLast? with
      | some l =>
        if l == ".." then normSegsAux allowAboveRoot (acc ++ [".."]) rest
        else normSegsAux allowAboveRoot acc.dropLast rest
      | none =>
        if allowAboveRoot then normSegsAux allowAboveRoot [".."] rest
        else normSegsAux allowAboveRoot [] rest
    else normSegsAux allowAboveRoot (acc ++ [seg]) rest

/-- Node path.posix.normalize. -/
def posixNormalize (p : String) : String :=
  if p.length = 0 then "."
  else
    let isAbs := jsStartsWith p "/"
    let trailing := jsEndsWith p "/"
    let body := jsJoin "/" (normSegsAux (!isAbs) [] (jsSplit p (fun c => c == '/')))
    let body2 := if body == "" && !isAbs then "." else body
    let body3 := if body2 != "" && trailing then body2 ++ "/" else body2
    if isAbs then "/" ++ body3 else body3

/-- Node path.posix.resolve of one already-combined absolute path. -/
def posixResolveAbs (combined : String) : String :=
  "/" ++ jsJoin "/" (normSegsAux false [] (jsSplit combined (fun c => c == '/')))

/-- Node path.posix.resolve(p) under an absolute working directory cwd. -/
def posixResolve (cwd p : String) : String :=
  posixResolveAbs (if jsStartsWith p "/" then p else cwd ++ "/" ++ p)

/-- Node path.posix.isAbsolute. -/
def posixIsAbsolute (p : String) : Bool := jsStartsWith p "/"

/-- Length of the longest common prefix of two segment lists. -/
def commonPrefixLen : List String → List String → Nat
  | a :: as, b :: bs => if a == b then commonPrefixLen as bs + 1 else 0
  | _, _ => 0

/-- Node path.posix.relative: resolve both paths, then — written here on the
path components, equivalently to Node's character-level common-prefix loop
on the two resolved (normalized, absolute, slash-free-tail) paths — go up
for each component from remaining in from, then down into to. -/
def posixRelative (cwd fromP toP : String) : String :=
  if fromP == toP then ""
  else
    let fromR := posixResolve cwd fromP
    let toR := posixResolve cwd toP
    if fromR == toR then ""
    else
      let fromParts := (jsSplit fromR (fun c => c == '/')).filter (fun s => s != "")
      let toParts := (jsSplit toR (fun c => c == '/')).filter (fun s => s != "")
      let common := commonPrefixLen fromParts toParts
      jsJoin "/" (List.replicate (fromParts.length - common) ".." ++ toParts.drop common)

/-- Node path.posix.join of two segments. -/
def posixJoin (a b : String) : String :=
  let parts := [a, b].filter (fun s => s != "")
  if parts.isEmpty then "." else posixNormalize (jsJoin "/" parts)

/-- The trailing-separator strip .replace(/[\/\\]+$/, ""). -/
def stripTrailingSeps (p : String) : String :=
  String.mk (p.data.reverse.dropWhile isSepChar).reverse

/-- The restricted system directories of normalizePath. -/
def restrictedDirs : List String :=
  ["C:\\Windows", "C:\\Program Files", "C:\\Program Files (x86)", "C:\\ProgramData"]

/-- Test of /^[A-Za-z]:$/. -/
def isDriveLetterColon (s : String) : Bool :=
  match s.data with
  | [a, b] => a.isAlpha && b == ':'
  | _ => false

/-- Backslash-to-slash conversion .replace(/\\/g, "/"). -/
def backslashToSlash (s : String) : String :=
  String.mk (s.data.map (fun c => if c == '\\' then '/' else c))

/-- The body of the repo's normalizePath try block: filename character
check, UNC preservation, drive-letter normalization, restricted-directory
rejection, relative resolution against cwd, default slash conversion. -/
def normalizePathInner (cwd : String) (platform : Platform) (inputPath : String) :
    Except McpError String :=
  let normalized := inputPath
  let filename := (jsSplit normalized (fun c => c == '/')).getLastD ""
  let hasInvalidChars :=
    if platform = Platform.win32 then
      hasWinInvalidChar filename ||
        (jsIncludes filename ":" && !isDriveLetterColon filename)
    else
      filename.data.any (fun c =>
        c == '<' || c == '>' || c == '"' || c == '|' || c == '?' || c == '*')
  if hasInvalidChars then
    Except.error (McpError.mk ErrorCode.invalidRequest
      s!"Filename contains invalid characters: {filename}")
  else if jsStartsWith normalized "\\\\" then
    Except.ok ("//" ++ backslashToSlash (String.mk (normalized.data.drop 2)))
  else if hasDrivePrefix normalized then
    Except.ok (backslashToSlash (posixNormalize normalized))
  else if restrictedDirs.any
      (fun dir => jsStartsWith (jsToLower normalized) (jsToLower dir)) then
    Except.error (McpError.mk ErrorCode.invalidRequest
      s!"Path points to restricted system directory: {normalized}")
  else if jsStartsWith normalized "./" || jsStartsWith normalized "../" then
    Except.ok (posixResolve cwd (posixNormalize normalized))
  else
    let normalized2 := backslashToSlash normalized
    if jsStartsWith normalized2 "./" || jsStartsWith normalized2 "../" then
      Except.ok (posixResolve cwd normalized2)
    else Except.ok normalized2

/-- Embedding of the repo's normalizePath: reject empty input, then run the
try block, wrapping any McpError thrown inside it into a
"Failed to normalize path" McpError (the catch block). -/
def normalizePath (cwd : String) (platform : Platform) (inputPath : String) :
    Except McpError String :=
  if inputPath == "" then
    Except.error (McpError.mk ErrorCode.invalidRequest s!"Invalid path: {inputPath}")
  else
    match normalizePathInner cwd platform inputPath with
    | Except.error e =>
      Except.error (McpError.mk ErrorCode.invalidRequest
        ("Failed to normalize path: " ++ e.message))
    | Except.ok v => Except.ok v

/-- Embedding of isParentPath: normalize both paths, equal paths are not
parent/child, otherwise the relative path must be a non-empty descent. -/
def isParentPath (cwd : String) (platform : Platform) (parent child : String) :
    Except McpError Bool :=
  match normalizePath cwd platform parent with
  | Except.error e => Except.error e
  | Except.ok parentPath =>
    match normalizePath cwd platform child with
    | Except.error e => Except.error e
    | Except.ok childPath =>
      if parentPath == childPath then Except.ok false
      else
        let relative := posixRelative cwd parentPath childPath
        Except.ok (relative != "" && !jsStartsWith relative ".." &&
          !posixIsAbsolute relative)

/-- The Set-based duplicate scan of checkPathOverlap: the first path equal
to an earlier one. -/
def dupCheckLoop (seen : List String) : List String → Option String
  | [] => none
  | p :: rest => if seen.contains p then some p else dupCheckLoop (seen ++ [p]) rest

/-- The inner loop of the pairwise overlap check: compare p against every
later path in both directions. -/
def overlapWith (cwd : String) (platform : Platform) (p : String) :
    List String → Except McpError Unit
  | [] => Except.ok ()
  | q :: rest =>
    match isParentPath cwd platform p q with
    | Except.error e => Except.error e
    | Except.ok b1 =>
      match isParentPath cwd platform q p with
      | Except.error e => Except.error e
      | Except.ok b2 =>
        if b1 || b2 then
          Except.error (McpError.mk ErrorCode.invalidRequest
            s!"Vault paths cannot overlap: {p} and {q}")
        else overlapWith cwd platform p rest

/-- The outer loop of the pairwise overlap check. -/
def pairwiseOverlap (cwd : String) (platform : Platform) :
    List String → Except McpError Unit
  | [] => Except.ok ()
  | p :: rest =>
    match overlapWith cwd platform p rest with
    | Except.error e => Except.error e
    | Except.ok _ => pairwiseOverlap cwd platform rest

/-- Embedding of checkPathOverlap: normalize every path and strip trailing
separators, throw on the first exact duplicate, then throw on any
parent/child pair. -/
def checkPathOverlap (cwd : String) (platform : Platform) (paths : List String) :
    Except McpError Unit :=
  let normalizedPaths := paths.map (fun p => stripTrailingSeps (posixNormalize p))
  match dupCheckLoop [] normalizedPaths with
  | some dupPath =>
    Except.error (McpError.mk ErrorCode.invalidRequest
      s!"Duplicate vault path provided: {dupPath}")
  | none => pairwiseOverlap cwd platform normalizedPaths

/-- Character-level slash join of path components, used to state which
strings are clean absolute paths. -/
def joinSlash : List (List Char) → List Char
  | [] => []
  | [x] => x
  | x :: rest => x ++ '/' :: joinSlash rest

/-- The absolute path with the given components. -/
def mkAbsPath (cs : List String) : String := "/" ++ jsJoin "/" cs

/-- A clean vault-path component: non-empty, free of separators and of the
Windows-invalid characters, and not starting with a dot (the startup
validators reject hidden components, so configured vault paths satisfy
this). -/
def GoodComp (c : String) : Bool :=
  c != "" &&
    c.data.all (fun ch =>
      !isSepChar ch && ch != '<' && ch != '>' && ch != '"' && ch != '|' &&
        ch != '?' && ch != '*') &&
    !jsStartsWith c "."

/-! ## formatSimpleDate (src/tools/get-daily-note-path/index.ts lines 46-90) -/

/-- JavaScript s.replace(/pat/g, rep) for a non-empty literal pattern:
non-overlapping replacement left to right, continuing after each
replacement. The recursion is driven by a character-count fuel so the
definition evaluates inside the kernel; each step consumes at least one
character, so fuel = s.length never runs out. -/
def replaceAllAux (pat rep : List Char) : Nat → List Char → List Char
  | _, [] => []
  | 0, s => s
  | fuel + 1, c :: rest =>
    if !pat.isEmpty && pat.isPrefixOf (c :: rest) then
      rep ++ replaceAllAux pat rep fuel ((c :: rest).drop pat.length)
    else
      c :: replaceAllAux pat rep fuel rest

/-- JavaScript s.replace(/pat/g, rep) over character lists. -/
def replaceAllSub (pat rep s : List Char) : List Char :=
  replaceAllAux pat rep s.length s

/-- JavaScript s.replace(/pat/g, rep) on strings. -/
def jsReplaceAll (s pat rep : String) : String :=
  String.mk (replaceAllSub pat.data rep.data s.data)

/-- JavaScript String(n).padStart(2, "0"). -/
def pad2 (s : String) : String :=
  if s.length < 2 then String.mk (List.replicate (2 - s.length) '0') ++ s else s

/-- A calendar date: the local-time components of the JavaScript Date the
formatter reads with getFullYear, getMonth + 1 and getDate. -/
structure CivilDate where
  year : Int
  month : Int
  day : Int
deriving DecidableEq, Repr

/-- Days since 1970-01-01 of a civil date (proleptic Gregorian). -/
def daysFromCivil (y m d : Int) : Int :=
  let y := if m ≤ 2 then y - 1 else y
  let era := Int.fdiv y 400
  let yoe := y - era * 400
  let mp := Int.emod (m + 9) 12
  let doy := Int.fdiv (153 * mp + 2) 5 + d - 1
  let doe := yoe * 365 + Int.fdiv yoe 4 - Int.fdiv yoe 100 + doy
  era * 146097 + doe - 719468

/-- Civil date (year, month, day) of a days-since-epoch count. -/
def civilFromDays (z0 : Int) : Int × Int × Int :=
  let z := z0 + 719468
  let era := Int.fdiv z 146097
  let doe := z - era * 146097
  let yoe := Int.fdiv (doe - Int.fdiv doe 1460 + Int.fdiv doe 36524 - Int.fdiv doe 146096) 365
  let y := yoe + era * 400
  let doy := doe - (365 * yoe + Int.fdiv yoe 4 - Int.fdiv yoe 100)
  let mp := Int.fdiv (5 * doy + 2) 153
  let d := doy - Int.fdiv (153 * mp + 2) 5 + 1
  let m := mp + (if mp < 10 then 3 else -9)
  (y + (if m ≤ 2 then 1 else 0), m, d)

/-- JavaScript date.getDay(): 0 = Sunday; 1970-01-01 was a Thursday. -/
def jsGetDay (days : Int) : Int := Int.emod (days + 4) 7

/-- Math.round(n / 7) for an integer n: round half toward positive
infinity. -/
def jsMathRoundDiv7 (n : Int) : Int := Int.fdiv (2 * n + 7) 14

/-- Embedding of formatSimpleDate: sequential global regex replacement of
the YYYY, MM, M, DD, D, dddd tokens, then — only when the original format
string contains a W — the ISO-week computation and the WW and W tokens. The
JavaScript Date arithmetic on local midnights is modelled as exact day
counts (no DST shifts), under which getTime differences are whole days. -/
def formatSimpleDate (date : CivilDate) (formatString : String) : String :=
  let year := date.year
  let month := date.month
  let day := date.day
  let dayOfWeek := jsGetDay (daysFromCivil date.year date.month date.day)
  let dayNames := ["Sunday", "Monday", "Tuesday", "Wednesday", "Thursday", "Friday",
    "Saturday"]
  let fullDayName := dayNames.getD dayOfWeek.toNat ""
  let formatted := formatString
  let formatted := jsReplaceAll formatted "YYYY" (toString year)
  let formatted := jsReplaceAll formatted "MM" (pad2 (toString month))
  let formatted := jsReplaceAll formatted "M" (toString month)
  let formatted := jsReplaceAll formatted "DD" (pad2 (toString day))
  let formatted := jsReplaceAll formatted "D" (toString day)
  let formatted := jsReplaceAll formatted "dddd" fullDayName
  if jsIncludes formatString "W" then
    let days := daysFromCivil date.year date.month date.day
    let tempDays := days + (3 - Int.emod (dayOfWeek + 6) 7)
    let tempYear := (civilFromDays tempDays).1
    let week1Days := daysFromCivil tempYear 1 4
    let weekNumber :=
      1 + jsMathRoundDiv7 (tempDays - week1Days - 3 + Int.emod (jsGetDay week1Days + 6) 7)
    let formatted := jsReplaceAll formatted "WW" (pad2 (toString weekNumber))
    jsReplaceAll formatted "W" (toString weekNumber)
  else formatted

/-! ## editNote and its backup/rollback protocol
(src/tools/edit-note/index.ts lines 54-161). The filesystem is modelled as
an association list path → content; each async fs call of the try/catch
protocol can be forced to raise an Error by a failure-injection record
carrying the raised message, which models the OS failing that call. -/

/-- The edit operations of the tool's schema. -/
inductive EditOperation where
  | append
  | prepend
  | replace
deriving DecidableEq, Repr

/-- Embedding of ensureMarkdownExtension (src/utils/path.ts lines 525-528):
normalize, then append ".md" unless already present. -/
def ensureMarkdownExtension (cwd : String) (platform : Platform)
    (filePath : String) : Except McpError String :=
  match normalizePath cwd platform filePath with
  | Except.error e => Except.error e
  | Except.ok normalized =>
    Except.ok (if jsEndsWith normalized ".md" then normalized else normalized ++ ".md")

/-- The filesystem: an association list of file path and content. -/
abbrev FS := List (String × String)

/-- Content of a file, none when absent; fs.stat-based fileExists is
`(fsGet fs p).isSome`. -/
def fsGet : FS → String → Option String
  | [], _ => none
  | (q, d) :: rest, p => if q == p then some d else fsGet rest p

/-- Write a file (fs.writeFile / the destination of fs.copyFile). -/
def fsSet : FS → String → String → FS
  | [], p, c => [(p, c)]
  | (q, d) :: rest, p, c =>
    if q == p then (q, c) :: rest else (q, d) :: fsSet rest p c

/-- Delete a file (fs.unlink). -/
def fsRemove (fs : FS) (p : String) : FS := fs.filter (fun e => e.1 != p)

/-- Failure injection for the async fs calls of editNote, in source order:
none means the call succeeds, some msg means it raises Error(msg). -/
structure FailSpec where
  copyBackupErr : Option String
  readErr : Option String
  writeErr : Option String
  unlinkErr : Option String
  rollbackCopyErr : Option String
  rollbackUnlinkErr : Option String
deriving DecidableEq, Repr

/-- A thrown JavaScript value inside the try block: an McpError (from
parseNote) or a plain Error from an fs call. -/
inductive Thrown where
  | mcp (e : McpError)
  | fsErr (msg : String)
deriving DecidableEq, Repr

/-- error.message of a thrown value. -/
def Thrown.message : Thrown → String
  | Thrown.mcp e => e.message
  | Thrown.fsErr m => m

/-- Modelled from the spec: handleFsError wraps an unexpected filesystem
error with the operation name and surfaces it as an internal error
(src/utils/errors.ts is not part of the published sources). -/
def handleFsError (msg op : String) : McpError :=
  McpError.mk ErrorCode.internalError ("Failed to " ++ op ++ ": " ++ msg)

/-- Modelled from the spec: the NotFound-class error for a missing note
(src/utils/errors.ts is not part of the published sources). -/
def createNoteNotFoundError (notePath : String) : McpError :=
  McpError.mk ErrorCode.invalidRequest ("Note not found: " ++ notePath)

/-- The FileOperationResult record returned on success. -/
structure FileOperationResult where
  success : Bool
  message : String
  resultPath : String
  operation : String
deriving DecidableEq, Repr

/-- The operation string of the schema enum. -/
def opName : EditOperation → String
  | EditOperation.append => "append"
  | EditOperation.prepend => "prepend"
  | EditOperation.replace => "replace"

/-- The past-tense message fragment: "replace" irregular, otherwise
operation + "ed". -/
def pastTense : EditOperation → String
  | EditOperation.replace => "replaced"
  | EditOperation.append => "appended"
  | EditOperation.prepend => "prepended"

/-- The switch statement preparing finalContentToWrite: append/prepend join
trimmed parts with a blank line (JS string truthiness = non-empty), replace
re-parses the note and swaps the body, which can throw on bad YAML. -/
def computeFinalContent (lib : YamlLib) (operation : EditOperation)
    (existingContent content : String) : Except McpError String :=
  let trimmedExisting := jsTrim existingContent
  let trimmedContent := jsTrim content
  match operation with
  | EditOperation.append =>
    Except.ok (if trimmedExisting == "" then trimmedContent
      else trimmedExisting ++ "\n\n" ++ trimmedContent)
  | EditOperation.prepend =>
    Except.ok (if trimmedExisting == "" then trimmedContent
      else trimmedContent ++ "\n\n" ++ trimmedExisting)
  | EditOperation.replace =>
    match parseNote lib existingContent with
    | Except.error e => Except.error e
    | Except.ok parsedNote =>
      Except.ok (stringifyNote lib
        (ParsedNote.mk parsedNote.frontmatter trimmedContent parsedNote.hasFrontmatter))

/-- The catch block of editNote: restore from backup when it exists and
delete it; if that inner try itself fails, throw the combined
rollback-failure error and leave the backup in place; after a successful
rollback re-throw McpErrors unchanged and wrap fs errors. -/
def editNoteCatch (fail : FailSpec) (operation : EditOperation)
    (fullPath backupPath : String) (err : Thrown) (fs : FS) :
    Except McpError FileOperationResult × FS :=
  if (fsGet fs backupPath).isSome then
    match fail.rollbackCopyErr with
    | some rollbackMsg =>
      (Except.error (McpError.mk ErrorCode.internalError
        ("Failed to rollback changes. Original error: " ++ err.message ++
          ". Rollback error: " ++ rollbackMsg ++ ". Backup preserved at " ++ backupPath)),
       fs)
    | none =>
      let restored := fsSet fs fullPath ((fsGet fs backupPath).getD "")
      match fail.rollbackUnlinkErr with
      | some rollbackMsg =>
        (Except.error (McpError.mk ErrorCode.internalError
          ("Failed to rollback changes. Original error: " ++ err.message ++
            ". Rollback error: " ++ rollbackMsg ++ ". Backup preserved at " ++ backupPath)),
         restored)
      | none =>
        match err with
        | Thrown.mcp e => (Except.error e, fsRemove restored backupPath)
        | Thrown.fsErr m =>
          (Except.error (handleFsError m (opName operation ++ " note")),
           fsRemove restored backupPath)
  else
    match err with
    | Thrown.mcp e => (Except.error e, fs)
    | Thrown.fsErr m => (Except.error (handleFsError m (opName operation ++ " note")), fs)

/-- Embedding of editNote: sanitize the path, validate (a no-op, see C1),
require the note to exist, then run the backup → read → compute → write →
unlink-backup sequence inside the try, diverting to editNoteCatch at the
first injected failure or thrown McpError. Returns the result or error
together with the final filesystem. -/
def editNote (env : FSEnv) (cwd : String) (platform : Platform) (lib : YamlLib)
    (fail : FailSpec) (vaultPath notePath : String) (operation : EditOperation)
    (content : String) (timestamp : Nat) (fs0 : FS) :
    Except McpError FileOperationResult × FS :=
  match ensureMarkdownExtension cwd platform notePath with
  | Except.error e => (Except.error e, fs0)
  | Except.ok sanitizedPath =>
    let fullPath := posixJoin vaultPath sanitizedPath
    match validateVaultPath env vaultPath fullPath with
    | Except.error e => (Except.error e, fs0)
    | Except.ok _ =>
      match fsGet fs0 fullPath with
      | none => (Except.error (createNoteNotFoundError notePath), fs0)
      | some existing0 =>
        let backupPath := fullPath ++ "." ++ toString timestamp ++ ".backup"
        match fail.copyBackupErr with
        | some m => editNoteCatch fail operation fullPath backupPath (Thrown.fsErr m) fs0
        | none =>
          let fs1 := fsSet fs0 backupPath existing0
          match fail.readErr with
          | some m => editNoteCatch fail operation fullPath backupPath (Thrown.fsErr m) fs1
          | none =>
            let existingContent := (fsGet fs1 fullPath).getD ""
            match computeFinalContent lib operation existingContent content with
            | Except.error e =>
              editNoteCatch fail operation fullPath backupPath (Thrown.mcp e) fs1
            | Except.ok finalContentToWrite =>
              match fail.writeErr with
              | some m =>
                editNoteCatch fail operation fullPath backupPath (Thrown.fsErr m) fs1
              | none =>
                let fs2 := fsSet fs1 fullPath finalContentToWrite
                match fail.unlinkErr with
                | some m =>
                  editNoteCatch fail operation fullPath backupPath (Thrown.fsErr m) fs2
                | none =>
                  (Except.ok (FileOperationResult.mk true
                    ("Note " ++ pastTense operation ++ " successfully") fullPath "edit"),
                   fsRemove fs2 backupPath)

instance {e a : Type} [DecidableEq e] [DecidableEq a] : DecidableEq (Except e a) := fun x y =>
  match x, y with
  | Except.error u, Except.error v =>
    match decEq u v with
    | isTrue h => isTrue (by rw [h])
    | isFalse h => isFalse (fun hh => h (by injection hh))
  | Except.ok u, Except.ok v =>
    match decEq u v with
    | isTrue h => isTrue (by rw [h])
    | isFalse h => isFalse (fun hh => h (by injection hh))
  | Except.error _, Except.ok _ => isFalse (fun h => Except.noConfusion h)
  | Except.ok _, Except.error _ => isFalse (fun h => Except.noConfusion h)

/-- A tag accepted on a searched line: the hash-prefixed tag text occurs at
some index that is at the line start or not directly after a backtick. -/
def AcceptedOn (sl : List Char) (t : String) : Prop :=
  ∃ i, ('#' :: t.data).isPrefixOf (sl.drop i) = true ∧
    (i = 0 ∨ ¬ sl.get? (i - 1) = some backtick)

/-! ## Theorems for the path claims -/

/-- C5: for every path string in which some component (split on either slash
or backslash) equals "." or "..", checkPathCharacters returns a non-null
rejection reason string, on every platform. -/
theorem c5_traversal_components_rejected (platform : Platform) (vaultPath : String)
    (h : (jsSplit vaultPath isSepChar).contains "." = true ∨
         (jsSplit vaultPath isSepChar).contains ".." = true) :
    checkPathCharacters platform vaultPath ≠ none := by
  have hmem : (".." ∈ jsSplit vaultPath isSepChar ∨ "." ∈ jsSplit vaultPath isSepChar) := by
    rcases h with h | h
    · exact Or.inr (by simpa using h)
    · exact Or.inl (by simpa using h)
  intro hnone
  unfold checkPathCharacters at hnone
  dsimp only at hnone
  repeat' split at hnone
  all_goals simp_all

/-- C1 (code bug): validateVaultPath never throws, for any environment, vault
root and target path — in particular not for the escaping resolved target
"/vault/../../etc/passwd" joined to vault root "/vault". The source negates
the un-awaited Promise returned by the async checkPathSafety, and a Promise
object is always truthy, so the error branch is unreachable (and the check
would not compare the target against the vault root even if awaited). -/
theorem c1_validateVaultPath_never_throws :
    (∀ env vaultPath targetPath,
      validateVaultPath env vaultPath targetPath = Except.ok ()) ∧
    validateVaultPath demoFSEnv "/vault" "/vault/../../etc/passwd" = Except.ok () :=
  ⟨fun _ _ _ => rfl, rfl⟩

/-- C9: tag normalization is not closed under tag validity — "ProjectActive"
validates, normalizes to "project-active", and the normalized form fails
validateTag because the introduced hyphen is outside [a-zA-Z0-9]. -/
theorem c9_normalize_breaks_validity :
    validateTag "ProjectActive" = true ∧
    normalizeTag "ProjectActive" true = "project-active" ∧
    validateTag (normalizeTag "ProjectActive" true) = false := by
  decide

/-- Reading back the key just assigned returns the assigned value. -/
theorem fmGet_fmSet_self (fm : Frontmatter) (key : String) (v : Yaml) :
    fmGet (fmSet fm key v) key = some v := by
  induction fm with
  | nil => simp [fmSet, fmGet]
  | cons kv rest ih =>
    obtain ⟨k, w⟩ := kv
    by_cases hk : k = key
    · simp [fmSet, fmGet, hk]
    · simpa [fmSet, fmGet, hk] using ih

/-- Reading back a deleted key returns nothing. -/
theorem fmGet_fmDelete_self (fm : Frontmatter) (key : String) :
    fmGet (fmDelete fm key) key = none := by
  induction fm with
  | nil => simp [fmDelete, fmGet]
  | cons kv rest ih =>
    obtain ⟨k, w⟩ := kv
    by_cases hk : k = key
    · simpa [fmDelete, fmGet, hk] using ih
    · simpa [fmDelete, fmGet, hk] using ih

/-- The loop of addTagsToFrontmatter throws at the first invalid tag. -/
theorem addTagsLoop_error_of_invalid (nz : Bool) :
    ∀ (ts : List String) (st : List Yaml),
      (∃ t ∈ ts, validateTag t = false) →
      ∃ msg, addTagsLoop st ts nz =
        Except.error (McpError.mk ErrorCode.invalidParams msg) := by
  intro ts
  induction ts with
  | nil =>
    intro st h
    rcases h with ⟨t, ht, _⟩
    exact absurd ht (List.not_mem_nil t)
  | cons a rest ih =>
    intro st h
    by_cases hv : validateTag a = true
    · rcases h with ⟨t, ht, hval⟩
      rcases List.mem_cons.mp ht with rfl | hmem
      · rw [hv] at hval
        exact absurd hval (by simp)
      · obtain ⟨msg, hmsg⟩ := ih (jsSetAdd st (Yaml.str (normalizeTag a nz))) ⟨t, hmem, hval⟩
        exact ⟨msg, by simp [addTagsLoop, hv, hmsg]⟩
    · refine ⟨s!"Invalid tag format: {a}", ?_⟩
      simp [addTagsLoop, hv]

/-- C10: addTagsToFrontmatter is atomic on validation failure — if any new
tag fails validateTag, the call throws an InvalidParams error and the
frontmatter mapping is completely unchanged (the source only assigns the
tags field after the whole list has been validated). -/
theorem c10_addTags_invalid_is_atomic (fm : Frontmatter) (newTags : List String)
    (normalize : Bool) (h : ∃ t ∈ newTags, validateTag t = false) :
    (addTagsToFrontmatter fm newTags normalize).2 = fm ∧
    ∃ msg, (addTagsToFrontmatter fm newTags normalize).1 =
      Except.error (McpError.mk ErrorCode.invalidParams msg) := by
  obtain ⟨msg, hmsg⟩ :=
    addTagsLoop_error_of_invalid normalize newTags (jsSetOfList (tagsFieldAsArray fm)) h
  constructor
  · unfold addTagsToFrontmatter
    rw [hmsg]
  · exact ⟨msg, by unfold addTagsToFrontmatter; rw [hmsg]⟩

/-- C10 witness: "bad tag" contains a space, so adding it throws and leaves
the mapping with its single title key untouched. -/
theorem c10_addTags_invalid_is_atomic_witness :
    (∃ t ∈ ["bad tag"], validateTag t = false) ∧
    (addTagsToFrontmatter [("title", Yaml.str "x")] ["bad tag"] true).2 =
      [("title", Yaml.str "x")] ∧
    ∃ msg, (addTagsToFrontmatter [("title", Yaml.str "x")] ["bad tag"] true).1 =
      Except.error (McpError.mk ErrorCode.invalidParams msg) :=
  ⟨⟨"bad tag", by decide, by decide⟩,
   (c10_addTags_invalid_is_atomic [("title", Yaml.str "x")] ["bad tag"] true
     ⟨"bad tag", by decide, by decide⟩).1,
   (c10_addTags_invalid_is_atomic [("title", Yaml.str "x")] ["bad tag"] true
     ⟨"bad tag", by decide, by decide⟩).2⟩

/-- C2 counterexample: removing "beta" from tags ["alpha", "beta"] leaves
exactly one tag, but the source stores it as the one-element array
["alpha"], not as the bare string "alpha" the claim requires. -/
theorem c2_counterexample_remove_keeps_array :
    removeTagsFromFrontmatter [("tags", Yaml.arr [Yaml.str "alpha", Yaml.str "beta"])]
        ["beta"] (RemoveTagsOptions.mk true []) =
      Except.ok (RemoveReport.mk [TagChange.mk "beta" "frontmatter" none none]
        [TagChange.mk "alpha" "frontmatter" none none],
        [("tags", Yaml.arr [Yaml.str "alpha"])]) ∧
    some (Yaml.arr [Yaml.str "alpha"]) ≠ some (Yaml.str "alpha") := by
  decide

/-- C2 amended: after addTagsToFrontmatter succeeds, the tags field is the
single remaining tag bare when exactly one remains, a sorted array when two
or more remain, and is deleted when none remain; removeTagsFromFrontmatter
deletes the field when no tag remains but otherwise always stores a sorted
array, even when exactly one tag remains. -/
theorem c2_tags_field_serialization :
    (∀ (fm : Frontmatter) (newTags : List String) (normalize : Bool) (ts : List Yaml),
      addTagsLoop (jsSetOfList (tagsFieldAsArray fm)) newTags normalize = Except.ok ts →
      ((ts = [] → fmGet (addTagsToFrontmatter fm newTags normalize).2 "tags" = none) ∧
       (∀ t, ts = [t] → fmGet (addTagsToFrontmatter fm newTags normalize).2 "tags" = some t) ∧
       (2 ≤ ts.length →
         fmGet (addTagsToFrontmatter fm newTags normalize).2 "tags" =
           some (Yaml.arr (jsSortYaml ts)) ∧
         (jsSortYaml ts).Sorted jsLe))) ∧
    (∀ (fm : Frontmatter) (tagsToRemove : List String) (options : RemoveTagsOptions)
        (rem : List String),
      removeRemaining fm tagsToRemove options = some rem →
      ((rem = [] →
         ∃ rep, removeTagsFromFrontmatter fm tagsToRemove options =
             Except.ok (rep, fmDelete fm "tags") ∧
           fmGet (fmDelete fm "tags") "tags" = none) ∧
       (rem ≠ [] →
         ∃ rep fm2, removeTagsFromFrontmatter fm tagsToRemove options =
             Except.ok (rep, fm2) ∧
           fmGet fm2 "tags" =
             some (Yaml.arr ((List.insertionSort (fun a b => a ≤ b) rem).map Yaml.str)) ∧
           (List.insertionSort (fun a b => a ≤ b) rem).Sorted (fun a b => a ≤ b)))) := by
  constructor
  · intro fm newTags normalize ts h
    refine ⟨?_, ?_, ?_⟩
    · intro hts
      subst hts
      unfold addTagsToFrontmatter
      simp only [h]
      exact fmGet_fmDelete_self fm "tags"
    · intro t hts
      subst hts
      unfold addTagsToFrontmatter
      simp only [h]
      exact fmGet_fmSet_self fm "tags" t
    · intro hlen
      match ts, h, hlen with
      | a :: b :: rest, h, _ =>
        unfold addTagsToFrontmatter
        simp only [h]
        exact ⟨fmGet_fmSet_self fm "tags" _, List.sorted_insertionSort jsLe _⟩
  · intro fm tagsToRemove options rem h
    unfold removeRemaining at h
    cases hcur : asStrings (tagsFieldAsArray fm) with
    | none => rw [hcur] at h; exact Option.noConfusion h
    | some currentTags =>
      rw [hcur] at h
      have hrem : currentTags.filter
          (fun tag => !removeShouldRemove tagsToRemove options tag) = rem := by
        simpa using h
      constructor
      · intro hempty
        subst hempty
        refine ⟨RemoveReport.mk
            ((currentTags.filter (fun t => removeShouldRemove tagsToRemove options t)).map
              (fun t => TagChange.mk t "frontmatter" none none))
            ((currentTags.filter (fun t => !removeShouldRemove tagsToRemove options t)).map
              (fun t => TagChange.mk t "frontmatter" none none)),
          ?_, fmGet_fmDelete_self fm "tags"⟩
        unfold removeTagsFromFrontmatter
        rw [hcur]
        dsimp only
        rw [hrem]
        simp
      · intro hne
        refine ⟨RemoveReport.mk
            ((currentTags.filter (fun t => removeShouldRemove tagsToRemove options t)).map
              (fun t => TagChange.mk t "frontmatter" none none))
            ((currentTags.filter (fun t => !removeShouldRemove tagsToRemove options t)).map
              (fun t => TagChange.mk t "frontmatter" none none)),
          fmSet fm "tags" (Yaml.arr ((List.insertionSort (fun a b => a ≤ b) rem).map Yaml.str)),
          ?_, fmGet_fmSet_self fm "tags" _, List.sorted_insertionSort _ _⟩
        unfold removeTagsFromFrontmatter
        rw [hcur]
        dsimp only
        rw [hrem, if_neg (by simpa using hne)]

/-- C2 witness: adding "b" then "a" to an empty mapping stores the sorted
two-element array; removing "y" from tags ["x", "y"] leaves the one-element
array ["x"]. -/
theorem c2_tags_field_serialization_witness :
    (fmGet (addTagsToFrontmatter [] ["b", "a"] true).2 "tags" =
        some (Yaml.arr (jsSortYaml [Yaml.str "b", Yaml.str "a"])) ∧
      (jsSortYaml [Yaml.str "b", Yaml.str "a"]).Sorted jsLe) ∧
    (∃ rep fm2,
      removeTagsFromFrontmatter [("tags", Yaml.arr [Yaml.str "x", Yaml.str "y"])] ["y"]
          (RemoveTagsOptions.mk true []) = Except.ok (rep, fm2) ∧
        fmGet fm2 "tags" =
          some (Yaml.arr ((List.insertionSort (fun a b => a ≤ b) ["x"]).map Yaml.str)) ∧
        (List.insertionSort (fun a b => a ≤ b) ["x"]).Sorted (fun a b => a ≤ b)) :=
  ⟨(c2_tags_field_serialization.1 [] ["b", "a"] true [Yaml.str "b", Yaml.str "a"]
      (by decide)).2.2 (by decide),
   (c2_tags_field_serialization.2 [("tags", Yaml.arr [Yaml.str "x", Yaml.str "y"])] ["y"]
      (RemoveTagsOptions.mk true []) ["x"] (by decide)).2 (by decide)⟩

/-- C5 witness: "a/../b" has a ".." component and is rejected. -/
theorem c5_traversal_components_rejected_witness :
    ((jsSplit "a/../b" isSepChar).contains "." = true ∨
      (jsSplit "a/../b" isSepChar).contains ".." = true) ∧
    checkPathCharacters Platform.posix "a/../b" ≠ none :=
  ⟨Or.inr (by decide),
   c5_traversal_components_rejected Platform.posix "a/../b" (Or.inr (by decide))⟩

/-- Rebuilding a string from its characters is the identity. -/
theorem strMk_data (s : String) : String.mk s.data = s := rfl

/-- If an LF-dash pair does not occur in c :: l, it does not occur in l. -/
theorem hasNLDash_tail (c : Char) (l : List Char) (h : hasNLDash (c :: l) = false) :
    hasNLDash l = false := by
  unfold hasNLDash at h
  split at h
  · exact absurd h (by simp)
  · next x xs heq =>
    injection heq with h1 h2
    rw [h2]
    exact h
  · next heq => exact absurd heq (by simp)

/-- The lazy delimiter scan over yamlText ++ "\n---" ++ rest finds exactly
the boundary delimiter when the YAML text holds no CR and no LF-dash pair. -/
theorem findDelim_append (F rest : List Char)
    (hr : '\r' ∉ F) (hnd : hasNLDash F = false) :
    findDelim (F ++ '\n' :: '-' :: '-' :: '-' :: rest) = some (F, rest) := by
  induction F with
  | nil => rfl
  | cons c F ih =>
    have hr' : '\r' ∉ F := fun hm => hr (List.mem_cons_of_mem c hm)
    have hc : c ≠ '\r' := fun hceq => hr (hceq ▸ List.mem_cons_self c F)
    have hnd' : hasNLDash F = false := hasNLDash_tail c F hnd
    have hdelim : delimAt (c :: (F ++ '\n' :: '-' :: '-' :: '-' :: rest)) = none := by
      unfold delimAt
      split
      · next heq =>
        injection heq with h1 _
        exact absurd h1 hc
      · next heq =>
        injection heq with h1 h2
        cases F with
        | nil =>
          injection h2 with h3 _
          exact absurd h3 (by decide)
        | cons d F2 =>
          injection h2 with h3 _
          rw [h1, h3] at hnd
          exact absurd hnd (by simp [hasNLDash])
      · rfl
    rw [show (c :: F) ++ '\n' :: '-' :: '-' :: '-' :: rest =
        c :: (F ++ '\n' :: '-' :: '-' :: '-' :: rest) from rfl]
    unfold findDelim
    rw [hdelim, ih hr' hnd']

/-- The empty-frontmatter regex does not match the serialized note when the
YAML text does not itself begin with three dashes. -/
theorem matchEmptyFM_stringify (F tail : List Char)
    (hpre : ['-', '-', '-'].isPrefixOf F = false) :
    matchEmptyFM ('-' :: '-' :: '-' :: '\n' :: (F ++ '\n' :: tail)) = none := by
  rcases F with - | ⟨a, - | ⟨b, - | ⟨c, F3⟩⟩⟩
  · rfl
  · show (match a :: '\n' :: tail with
        | '-' :: '-' :: '-' :: rest3 => some (dropOptCROptLF rest3)
        | _ => none) = none
    split <;> simp_all
  · show (match a :: b :: '\n' :: tail with
        | '-' :: '-' :: '-' :: rest3 => some (dropOptCROptLF rest3)
        | _ => none) = none
    split <;> simp_all
  · show (match a :: b :: c :: (F3 ++ '\n' :: tail) with
        | '-' :: '-' :: '-' :: rest3 => some (dropOptCROptLF rest3)
        | _ => none) = none
    split <;> simp_all [List.isPrefixOf]

/-- The general frontmatter regex splits the serialized note into the YAML
text and everything after the closing delimiter line. -/
theorem matchFMSplit_stringify (F rest : List Char)
    (hr : '\r' ∉ F) (hnd : hasNLDash F = false) :
    matchFMSplit ('-' :: '-' :: '-' :: '\n' :: (F ++ '\n' :: '-' :: '-' :: '-' :: rest)) =
      some (F, dropOptCROptLF rest) := by
  show (match findDelim (F ++ '\n' :: '-' :: '-' :: '-' :: rest) with
      | none => none
      | some (g1, after) => some (g1, dropOptCROptLF after)) =
    some (F, dropOptCROptLF rest)
  rw [findDelim_append F rest hr hnd]

/-- C4 amended: for a ParsedNote with hasFrontmatter and a non-empty
mapping, and a YAML library whose trimmed serialization is non-empty, has no
CR, no line starting with a dash, and parses back to the original mapping,
parseNote after stringifyNote returns the frontmatter deep-equal to the
original — but the content comes back as "\n" ++ content.trim(): the blank
separator line after the closing delimiter survives as a leading newline,
because the regex's `\n?` consumes only one of the two newlines. -/
theorem c4_roundtrip_content_keeps_newline (lib : YamlLib) (p : ParsedNote)
    (hhas : p.hasFrontmatter = true)
    (hfm : p.frontmatter.isEmpty = false)
    (hr : '\r' ∉ (jsTrim (lib.stringify p.frontmatter)).data)
    (hnd : hasNLDash (jsTrim (lib.stringify p.frontmatter)).data = false)
    (hpre : ['-', '-', '-'].isPrefixOf (jsTrim (lib.stringify p.frontmatter)).data = false)
    (hparse : lib.parse (jsTrim (lib.stringify p.frontmatter)) =
      Except.ok (some p.frontmatter)) :
    parseNote lib (stringifyNote lib p) =
      Except.ok (ParsedNote.mk p.frontmatter ("\n" ++ jsTrim p.content) true) := by
  have hstr : (stringifyNote lib p).data =
      '-' :: '-' :: '-' :: '\n' :: ((jsTrim (lib.stringify p.frontmatter)).data ++
        '\n' :: '-' :: '-' :: '-' :: '\n' :: '\n' :: (jsTrim p.content).data) := by
    unfold stringifyNote
    rw [hhas, hfm]
    simp [List.append_assoc]
  unfold parseNote
  rw [hstr]
  rw [matchEmptyFM_stringify _ _ hpre]
  rw [matchFMSplit_stringify _ _ hr hnd]
  dsimp only
  rw [strMk_data, hparse]
  rfl

/-- C4 counterexample: round-tripping the note with frontmatter a: b and
content "Hello" through the modelled YAML library returns content "\nHello",
not content.trim() = "Hello" as the claim requires (the frontmatter mapping
does come back deep-equal). -/
theorem c4_counterexample_leading_newline :
    parseNote miniYamlLib (stringifyNote miniYamlLib
        (ParsedNote.mk [("a", Yaml.str "b")] "Hello" true)) =
      Except.ok (ParsedNote.mk [("a", Yaml.str "b")] "\nHello" true) ∧
    ("\nHello" : String) ≠ jsTrim "Hello" := by
  decide

/-- C4 witness: the amended round-trip applied to the concrete note with
frontmatter a: b and content "Hello" under the modelled YAML library. -/
theorem c4_roundtrip_content_keeps_newline_witness :
    parseNote miniYamlLib (stringifyNote miniYamlLib
        (ParsedNote.mk [("a", Yaml.str "b")] "Hello" true)) =
      Except.ok (ParsedNote.mk [("a", Yaml.str "b")]
        ("\n" ++ jsTrim "Hello") true) :=
  c4_roundtrip_content_keeps_newline miniYamlLib
    (ParsedNote.mk [("a", Yaml.str "b")] "Hello" true)
    rfl (by decide) (by decide) (by decide) (by decide) (by decide)

/-- C8: for 2024-06-01 (a Saturday) and the format string "YYYY-MM-DD dddd",
the daily-note date formatter produces exactly "2024-06-01 Saturday". -/
theorem c8_format_date_2024_06_01 :
    formatSimpleDate (CivilDate.mk 2024 6 1) "YYYY-MM-DD dddd" = "2024-06-01 Saturday" := by
  decide

/-- An occurrence reported by indexOf is a genuine occurrence. -/
theorem idxOfSub_isPrefixOf (pat : List Char) :
    ∀ (l : List Char) (n : Nat), idxOfSub pat l = some n →
      pat.isPrefixOf (l.drop n) = true := by
  intro l
  induction l with
  | nil =>
    intro n h
    unfold idxOfSub at h
    split at h
    · next hp =>
      injection h with h1
      subst h1
      cases pat with
      | nil => simp [List.isPrefixOf]
      | cons x xs => simp at hp
    · exact Option.noConfusion h
  | cons c rest ih =>
    intro n h
    unfold idxOfSub at h
    split at h
    · next hp =>
      injection h with h1
      subst h1
      simpa using hp
    · cases hm : idxOfSub pat rest with
      | none => rw [hm] at h; exact Option.noConfusion h
      | some m =>
        rw [hm] at h
        injection h with h1
        subst h1
        simpa using ih m hm

/-- takeWhile is idempotent. -/
theorem takeWhile_idem (p : Char → Bool) (l : List Char) :
    (l.takeWhile p).takeWhile p = l.takeWhile p := by
  induction l with
  | nil => rfl
  | cons c rest ih =>
    by_cases hc : p c
    · simp [List.takeWhile_cons, hc, ih]
    · simp [List.takeWhile_cons, hc]

/-- Every match the tag scanner emits is a hash followed by a non-empty run
of tag-body characters (stable under takeWhile). -/
theorem tagScanAux_shape :
    ∀ (fuel : Nat) (prev : Option Char) (l : List Char) (m : List Char),
      m ∈ tagScanAux prev fuel l →
      ∃ run, m = '#' :: run ∧ run ≠ [] ∧ run.takeWhile isTagBodyChar = run := by
  intro fuel
  induction fuel with
  | zero =>
    intro prev l m hm
    cases l <;> simp [tagScanAux] at hm
  | succ fuel ih =>
    intro prev l m hm
    cases l with
    | nil => simp [tagScanAux] at hm
    | cons c rest =>
      unfold tagScanAux at hm
      split at hm
      · dsimp only at hm
        by_cases hrun : (rest.takeWhile isTagBodyChar).isEmpty
        · rw [if_pos hrun] at hm
          exact ih _ _ _ hm
        · rw [if_neg hrun] at hm
          rcases List.mem_cons.mp hm with rfl | hm2
          · exact ⟨rest.takeWhile isTagBodyChar, rfl,
              by simpa [List.isEmpty_iff] using hrun, takeWhile_idem _ _⟩
          · exact ih _ _ _ hm2
      · exact ih _ _ _ hm

/-- A tag added by one forEach body was already present or is accepted on
the searched line. -/
theorem tagMatchStep_mem (sl : List Char) (tags : List String) (m : List Char) (t : String)
    (hshape : ∃ run, m = '#' :: run ∧ run ≠ [] ∧ run.takeWhile isTagBodyChar = run)
    (ht : t ∈ tagMatchStep sl tags m) :
    t ∈ tags ∨ AcceptedOn sl t := by
  obtain ⟨run, rfl, hne, hstable⟩ := hshape
  have hcap : innerTagCapture ('#' :: run) = some run := by
    show (if (run.takeWhile isTagBodyChar).isEmpty then innerTagCapture run
          else some (run.takeWhile isTagBodyChar)) = some run
    rw [hstable, if_neg (by simpa [List.isEmpty_iff] using hne)]
  unfold tagMatchStep at ht
  rw [hcap] at ht
  dsimp only at ht
  cases hidx : idxOfSub ('#' :: run) sl with
  | none => rw [hidx] at ht; exact Or.inl ht
  | some index =>
    rw [hidx] at ht
    dsimp only at ht
    split at ht
    · exact Or.inl ht
    · next hguard =>
      unfold jsSetAddStr at ht
      split at ht
      · exact Or.inl ht
      · rcases List.mem_append.mp ht with ht1 | ht2
        · exact Or.inl ht1
        · have hteq : t = String.mk run := by simpa using ht2
          subst hteq
          refine Or.inr ⟨index, ?_, ?_⟩
          · exact idxOfSub_isPrefixOf _ _ _ hidx
          · by_cases hz : index = 0
            · exact Or.inl hz
            · right
              intro hbt
              exact hguard ⟨hz, hbt⟩

/-- Folding the forEach body over the scanner's matches only adds accepted
tags. -/
theorem foldl_tagMatchStep_mem (sl : List Char) :
    ∀ (ms : List (List Char)) (tags0 : List String) (t : String),
      (∀ m ∈ ms, ∃ run, m = '#' :: run ∧ run ≠ [] ∧ run.takeWhile isTagBodyChar = run) →
      t ∈ ms.foldl (tagMatchStep sl) tags0 →
      t ∈ tags0 ∨ AcceptedOn sl t := by
  intro ms
  induction ms with
  | nil => intro tags0 t _ ht; exact Or.inl ht
  | cons m ms ih =>
    intro tags0 t hshapes ht
    rcases ih (tagMatchStep sl tags0 m) t
        (fun m2 hm2 => hshapes m2 (List.mem_cons_of_mem m hm2)) ht with ht1 | ht2
    · exact tagMatchStep_mem sl tags0 m t (hshapes m (List.mem_cons_self m ms)) ht1
    · exact Or.inr ht2

/-- Tags gathered from one searched line were already present or are
accepted on that line. -/
theorem lineAcceptedTags_sound (sl : List Char) (tags0 : List String) (t : String)
    (ht : t ∈ lineAcceptedTags sl tags0) : t ∈ tags0 ∨ AcceptedOn sl t :=
  foldl_tagMatchStep_mem sl (tagScan sl) tags0 t
    (fun m hm => tagScanAux_shape _ _ _ m hm) ht

/-- One loop iteration preserves the invariant that every gathered tag is
accepted on some searched line. -/
theorem extractTagsStep_sound (st : ExtractState) (line : String)
    (h : ∀ t ∈ st.tags, ∃ sl ∈ st.searched, AcceptedOn sl t) :
    ∀ t ∈ (extractTagsStep st line).tags,
      ∃ sl ∈ (extractTagsStep st line).searched, AcceptedOn sl t := by
  intro t ht
  unfold extractTagsStep at ht ⊢
  rcases hcore : extractTagsStepCore st.inCodeBlock st.inHtmlComment line with ⟨slOpt, cb, hc⟩
  rw [hcore] at ht
  cases slOpt with
  | none => exact h t ht
  | some sl =>
    dsimp only at ht ⊢
    rcases lineAcceptedTags_sound sl st.tags t ht with ht1 | ht2
    · obtain ⟨sl2, hsl2, hacc⟩ := h t ht1
      exact ⟨sl2, List.mem_append_left _ hsl2, hacc⟩
    · exact ⟨sl, List.mem_append_right _ (List.mem_cons_self sl []), ht2⟩

/-- The whole line fold preserves the invariant. -/
theorem extractTags_fold_sound :
    ∀ (lines : List String) (st : ExtractState),
      (∀ t ∈ st.tags, ∃ sl ∈ st.searched, AcceptedOn sl t) →
      ∀ t ∈ (lines.foldl extractTagsStep st).tags,
        ∃ sl ∈ (lines.foldl extractTagsStep st).searched, AcceptedOn sl t := by
  intro lines
  induction lines with
  | nil => intro st h; exact h
  | cons line rest ih =>
    intro st h
    exact ih (extractTagsStep st line) (extractTagsStep_sound st line h)

/-- C7: extractTags excludes inline-code and fenced-code occurrences — the
two concrete evaluations of the claim, and in general every returned tag is
witnessed by an occurrence on a line the scanner actually searched (outside
fenced code blocks and HTML comments) at a position not directly after a
backtick. -/
theorem c7_extractTags_code_exclusions :
    extractTags "`#notatag` #realtag" = ["realtag"] ∧
    extractTags "```\n#codeTag\n```\n#outside" = ["outside"] ∧
    (∀ content t, t ∈ extractTags content →
      ∃ sl ∈ searchedLines content, AcceptedOn sl t) := by
  refine ⟨by decide, by decide, ?_⟩
  intro content t ht
  exact extractTags_fold_sound (jsSplit content (fun c => c == '\n'))
    (ExtractState.mk [] false false []) (by intro t2 ht2; simp at ht2) t ht

/-- C7 witness: "realtag" is returned for the first example, and the
general clause yields a searched-line occurrence for it. -/
theorem c7_extractTags_code_exclusions_witness :
    ("realtag" ∈ extractTags "`#notatag` #realtag") ∧
    ∃ sl ∈ searchedLines "`#notatag` #realtag", AcceptedOn sl "realtag" :=
  ⟨by decide,
   c7_extractTags_code_exclusions.2.2 "`#notatag` #realtag" "realtag" (by decide)⟩

/-! ### C6: clean absolute paths are fixed points of the normalization
pipeline, and isParentPath on them is the strict component-prefix test. -/

theorem splitChars_sepFree (p : Char → Bool) (l : List Char)
    (h : ∀ ch ∈ l, p ch = false) : splitChars p l = [l] := by
  induction l with
  | nil => rfl
  | cons c rest ih =>
    have hc : p c = false := h c (List.mem_cons_self c rest)
    have hr := ih (fun ch hm => h ch (List.mem_cons_of_mem c hm))
    simp [splitChars, hc, hr]

theorem splitChars_append_sep (p : Char → Bool) (sep : Char) (hsep : p sep = true)
    (x l : List Char) (h : ∀ ch ∈ x, p ch = false) :
    splitChars p (x ++ sep :: l) = x :: splitChars p l := by
  induction x with
  | nil => simp [splitChars, hsep]
  | cons c x' ih =>
    have hc : p c = false := h c (List.mem_cons_self c x')
    have hr := ih (fun ch hm => h ch (List.mem_cons_of_mem c hm))
    simp [splitChars, hc, hr]

theorem joinSlash_split (p : Char → Bool) (hsl : p '/' = true) :
    ∀ xs : List (List Char), xs ≠ [] → (∀ x ∈ xs, ∀ ch ∈ x, p ch = false) →
      splitChars p (joinSlash xs) = xs
  | [], h, _ => absurd rfl h
  | [x], _, hx => by
      simpa [joinSlash] using splitChars_sepFree p x (hx x (by simp))
  | x :: y :: rest, _, hx => by
      have hr := joinSlash_split p hsl (y :: rest) (by simp)
        (fun z hz ch hc => hx z (List.mem_cons_of_mem x hz) ch hc)
      show splitChars p (x ++ '/' :: joinSlash (y :: rest)) = x :: y :: rest
      rw [splitChars_append_sep p '/' hsl x _ (hx x (by simp)), hr]

theorem jsJoin_data : ∀ cs : List String,
    (jsJoin "/" cs).data = joinSlash (cs.map String.data)
  | [] => rfl
  | [_] => rfl
  | x :: y :: rest => by
      show (x ++ "/" ++ jsJoin "/" (y :: rest)).data =
        x.data ++ '/' :: joinSlash ((y :: rest).map String.data)
      rw [String.data_append, String.data_append, jsJoin_data (y :: rest)]
      simp

theorem mkAbsPath_data (cs : List String) :
    (mkAbsPath cs).data = '/' :: joinSlash (cs.map String.data) := by
  show (("/" : String) ++ jsJoin "/" cs).data = _
  rw [String.data_append, jsJoin_data]
  rfl

theorem goodComp_ne_empty (c : String) (h : GoodComp c = true) : (c != "") = true := by
  unfold GoodComp at h
  simp only [Bool.and_eq_true] at h
  exact h.1.1

theorem goodComp_ne_nil (c : String) (h : GoodComp c = true) : c.data ≠ [] := by
  intro hd
  have h2 : String.mk c.data = String.mk [] := congrArg String.mk hd
  rw [strMk_data] at h2
  rw [h2] at h
  exact absurd h (by decide)

theorem goodComp_chars (c : String) (h : GoodComp c = true) :
    ∀ ch ∈ c.data, isSepChar ch = false ∧ (ch == '<') = false ∧ (ch == '>') = false ∧
      (ch == '"') = false ∧ (ch == '|') = false ∧ (ch == '?') = false ∧
      (ch == '*') = false := by
  unfold GoodComp at h
  simp only [Bool.and_eq_true, List.all_eq_true] at h
  intro ch hm
  have h3 := h.1.2 ch hm
  simp only [Bool.and_eq_true, Bool.not_eq_true', bne_eq_false_iff_eq, bne,
    Bool.not_eq_true] at h3 ⊢
  tauto

theorem goodComp_not_special (c : String) (h : GoodComp c = true) :
    (c == "") = false ∧ (c == ".") = false ∧ (c == "..") = false := by
  refine ⟨?_, ?_, ?_⟩
  · cases hq : (c == "") with
    | false => rfl
    | true => rw [eq_of_beq hq] at h; exact absurd h (by decide)
  · cases hq : (c == ".") with
    | false => rfl
    | true => rw [eq_of_beq hq] at h; exact absurd h (by decide)
  · cases hq : (c == "..") with
    | false => rfl
    | true => rw [eq_of_beq hq] at h; exact absurd h (by decide)

theorem goodComp_head_not_dot (c : String) (dc : Char) (dcs : List Char)
    (h : GoodComp c = true) (hd : c.data = dc :: dcs) : (dc == '.') = false := by
  unfold GoodComp at h
  simp only [Bool.and_eq_true] at h
  have hns := h.2
  rw [Bool.not_eq_true'] at hns
  unfold jsStartsWith at hns
  rw [hd] at hns
  simp only [List.isPrefixOf, List.isPrefixOf_nil_left, Bool.and_true] at hns
  cases hq : (dc == '.') with
  | false => rfl
  | true => rw [eq_of_beq hq] at hns; exact absurd hns (by decide)

theorem joinSlash_reverse : ∀ xs : List (List Char), xs ≠ [] →
    (∀ x ∈ xs, x ≠ [] ∧ ∀ ch ∈ x, isSepChar ch = false) →
    ∃ c t, (joinSlash xs).reverse = c :: t ∧ isSepChar c = false
  | [], h, _ => absurd rfl h
  | [x], _, hx => by
      obtain ⟨hxne, hchars⟩ := hx x (by simp)
      obtain ⟨c, t, hct⟩ := List.exists_cons_of_ne_nil
        (fun hr => hxne (List.reverse_eq_nil_iff.mp hr))
      have hcm : c ∈ x := List.mem_reverse.mp (hct ▸ List.mem_cons_self c t)
      exact ⟨c, t, by simpa [joinSlash] using hct, hchars c hcm⟩
  | x :: y :: rest, _, hx => by
      obtain ⟨c, t, hct, hc⟩ := joinSlash_reverse (y :: rest) (by simp)
        (fun z hz => hx z (List.mem_cons_of_mem x hz))
      refine ⟨c, t ++ '/' :: x.reverse, ?_, hc⟩
      show (x ++ '/' :: joinSlash (y :: rest)).reverse = _
      rw [List.reverse_append, List.reverse_cons, hct]
      simp

theorem mkAbsPath_reverse (cs : List String) (hne : cs ≠ [])
    (hg : ∀ c ∈ cs, GoodComp c = true) :
    ∃ c t, (mkAbsPath cs).data.reverse = c :: t ∧ isSepChar c = false := by
  obtain ⟨c, t, hct, hc⟩ := joinSlash_reverse (cs.map String.data) (by simpa using hne)
    (by
      intro x hx
      obtain ⟨d, hd, hdx⟩ := List.mem_map.mp hx
      subst hdx
      exact ⟨goodComp_ne_nil d (hg d hd),
        fun ch hch => (goodComp_chars d (hg d hd) ch hch).1⟩)
  refine ⟨c, t ++ ['/'], ?_, hc⟩
  rw [mkAbsPath_data, List.reverse_cons, hct]
  simp

theorem mkAbsPath_startsWith_slash (cs : List String) :
    jsStartsWith (mkAbsPath cs) "/" = true := by
  unfold jsStartsWith
  rw [mkAbsPath_data]
  show List.isPrefixOf ['/'] ('/' :: joinSlash (cs.map String.data)) = true
  simp [List.isPrefixOf]

theorem mkAbsPath_not_endsWith_slash (cs : List String) (hne : cs ≠ [])
    (hg : ∀ c ∈ cs, GoodComp c = true) :
    jsEndsWith (mkAbsPath cs) "/" = false := by
  obtain ⟨c, t, hct, hc⟩ := mkAbsPath_reverse cs hne hg
  unfold jsEndsWith
  show List.isPrefixOf (("/" : String).data.reverse) ((mkAbsPath cs).data.reverse) = false
  rw [hct]
  have h1 : (c == '/') = false := by
    unfold isSepChar at hc
    exact (Bool.or_eq_false_iff.mp hc).1
  have h2 : ('/' == c) = false := by
    rw [beq_eq_false_iff_ne] at h1 ⊢
    exact fun h => h1 h.symm
  show (('/' == c) && List.isPrefixOf [] t) = false
  rw [h2]
  rfl

theorem stripTrailingSeps_mkAbsPath (cs : List String) (hne : cs ≠ [])
    (hg : ∀ c ∈ cs, GoodComp c = true) :
    stripTrailingSeps (mkAbsPath cs) = mkAbsPath cs := by
  obtain ⟨c, t, hct, hc⟩ := mkAbsPath_reverse cs hne hg
  unfold stripTrailingSeps
  rw [hct, List.dropWhile_cons_of_neg (by simp [hc]), ← hct]
  rw [List.reverse_reverse, strMk_data]

theorem jsSplit_mkAbsPath (cs : List String) (hne : cs ≠ [])
    (hg : ∀ c ∈ cs, GoodComp c = true) :
    jsSplit (mkAbsPath cs) (fun c => c == '/') = "" :: cs := by
  unfold jsSplit
  rw [mkAbsPath_data]
  show ([] :: splitChars (fun c => c == '/') (joinSlash (cs.map String.data))).map
    String.mk = "" :: cs
  rw [joinSlash_split (fun c => c == '/') rfl (cs.map String.data)
    (by simpa using hne)
    (by
      intro x hx ch hch
      obtain ⟨d, hd, hdx⟩ := List.mem_map.mp hx
      subst hdx
      have := (goodComp_chars d (hg d hd) ch hch).1
      unfold isSepChar at this
      exact (Bool.or_eq_false_iff.mp this).1)]
  rw [List.map_cons, List.map_map]
  have hid : ∀ d ∈ cs, (String.mk ∘ String.data) d = id d := fun d _ => strMk_data d
  rw [List.map_congr_left hid, List.map_id]

theorem splitFilter_mkAbsPath (cs : List String) (hne : cs ≠ [])
    (hg : ∀ c ∈ cs, GoodComp c = true) :
    (jsSplit (mkAbsPath cs) (fun c => c == '/')).filter (fun s => s != "") = cs := by
  rw [jsSplit_mkAbsPath cs hne hg]
  rw [List.filter_cons_of_neg (by decide)]
  exact List.filter_eq_self.mpr (fun c hc => goodComp_ne_empty c (hg c hc))

theorem normSegsAux_clean (ar : Bool) : ∀ (segs acc : List String),
    (∀ s ∈ segs, s = "" ∨ GoodComp s = true) →
    normSegsAux ar acc segs = acc ++ segs.filter (fun s => s != "")
  | [], acc, _ => by simp [normSegsAux]
  | s :: rest, acc, h => by
    have hrest := fun z hz => h z (List.mem_cons_of_mem s hz)
    rcases h s (List.mem_cons_self s rest) with hs | hs
    · subst hs
      rw [show normSegsAux ar acc ("" :: rest) = normSegsAux ar acc rest from by
        simp [normSegsAux]]
      rw [normSegsAux_clean ar rest acc hrest]
      rw [List.filter_cons_of_neg (by decide)]
    · obtain ⟨h0, h1, h2⟩ := goodComp_not_special s hs
      rw [show normSegsAux ar acc (s :: rest) = normSegsAux ar (acc ++ [s]) rest from by
        simp [normSegsAux, h0, h1, h2]]
      rw [normSegsAux_clean ar rest (acc ++ [s]) hrest]
      simp [List.filter_cons, goodComp_ne_empty s hs]

theorem normSegsAux_mkAbsPath (cs : List String) (hne : cs ≠ [])
    (hg : ∀ c ∈ cs, GoodComp c = true) :
    normSegsAux false [] (jsSplit (mkAbsPath cs) (fun c => c == '/')) = cs := by
  rw [jsSplit_mkAbsPath cs hne hg]
  rw [normSegsAux_clean false ("" :: cs) []
    (by
      intro s hs
      rcases List.mem_cons.mp hs with rfl | hs
      · exact Or.inl rfl
      · exact Or.inr (hg s hs))]
  rw [List.filter_cons_of_neg (by decide)]
  rw [List.filter_eq_self.mpr (fun c hc => goodComp_ne_empty c (hg c hc))]
  rfl

theorem posixNormalize_mkAbsPath (cs : List String) (hne : cs ≠ [])
    (hg : ∀ c ∈ cs, GoodComp c = true) :
    posixNormalize (mkAbsPath cs) = mkAbsPath cs := by
  have hlen : ¬ (mkAbsPath cs).length = 0 := by
    show ¬ (mkAbsPath cs).data.length = 0
    rw [mkAbsPath_data]
    simp
  have hstart := mkAbsPath_startsWith_slash cs
  have hend := mkAbsPath_not_endsWith_slash cs hne hg
  have hns := normSegsAux_mkAbsPath cs hne hg
  unfold posixNormalize
  rw [if_neg hlen]
  simp only [hstart, hend, Bool.not_true, hns, Bool.and_false, Bool.false_eq_true,
    if_false, if_true]
  rfl

theorem posixResolve_mkAbsPath (cwd : String) (cs : List String) (hne : cs ≠ [])
    (hg : ∀ c ∈ cs, GoodComp c = true) :
    posixResolve cwd (mkAbsPath cs) = mkAbsPath cs := by
  unfold posixResolve posixResolveAbs
  rw [mkAbsPath_startsWith_slash cs]
  simp only [if_true]
  rw [normSegsAux_mkAbsPath cs hne hg]
  rfl

theorem mem_joinSlash : ∀ (xs : List (List Char)) (ch : Char), ch ∈ joinSlash xs →
    ch = '/' ∨ ∃ x ∈ xs, ch ∈ x
  | [], _, h => absurd h (by simp [joinSlash])
  | [x], ch, h => Or.inr ⟨x, by simp, h⟩
  | x :: y :: r, ch, h => by
      rw [show joinSlash (x :: y :: r) = x ++ '/' :: joinSlash (y :: r) from rfl] at h
      rcases List.mem_append.mp h with h1 | h2
      · exact Or.inr ⟨x, by simp, h1⟩
      · rcases List.mem_cons.mp h2 with rfl | h3
        · exact Or.inl rfl
        · rcases mem_joinSlash (y :: r) ch h3 with h4 | ⟨z, hz, hchz⟩
          · exact Or.inl h4
          · exact Or.inr ⟨z, List.mem_cons_of_mem x hz, hchz⟩

theorem mem_mkAbsPath_data (cs : List String)
    (ch : Char) (h : ch ∈ (mkAbsPath cs).data) :
    ch = '/' ∨ ∃ c ∈ cs, ch ∈ c.data := by
  rw [mkAbsPath_data] at h
  rcases List.mem_cons.mp h with rfl | h2
  · exact Or.inl rfl
  · rcases mem_joinSlash (cs.map String.data) ch h2 with h3 | ⟨x, hx, hchx⟩
    · exact Or.inl h3
    · obtain ⟨d, hd, hdx⟩ := List.mem_map.mp hx
      subst hdx
      exact Or.inr ⟨d, hd, hchx⟩

theorem backslashToSlash_mkAbsPath (cs : List String)
    (hg : ∀ c ∈ cs, GoodComp c = true) :
    backslashToSlash (mkAbsPath cs) = mkAbsPath cs := by
  unfold backslashToSlash
  have hch : ∀ ch ∈ (mkAbsPath cs).data, (if ch == '\\' then '/' else ch) = ch := by
    intro ch hm
    have : (ch == '\\') = false := by
      rcases mem_mkAbsPath_data cs ch hm with rfl | ⟨d, hd, hchd⟩
      · rfl
      · have := (goodComp_chars d (hg d hd) ch hchd).1
        unfold isSepChar at this
        exact (Bool.or_eq_false_iff.mp this).2
    simp [this]
  rw [List.map_congr_left hch, List.map_id']

example (cs : List String) : (mkAbsPath cs == "") = false := rfl
example (cs : List String) (p : Char → Bool) : jsSplit (mkAbsPath cs) p = (splitChars p ('/' :: (jsJoin "/" cs).data)).map String.mk := rfl

theorem getLastD_mem : ∀ (l : List String) (d : String), l ≠ [] → l.getLastD d ∈ l
  | [], _, h => absurd rfl h
  | [x], _, _ => by simp
  | x :: y :: r, _, _ => by
      rw [List.getLastD_cons]
      exact List.mem_cons_of_mem x (getLastD_mem (y :: r) x (by simp))

theorem hasDrivePrefix_mkAbsPath (cs : List String) :
    hasDrivePrefix (mkAbsPath cs) = false := by
  unfold hasDrivePrefix
  rw [mkAbsPath_data]
  cases hj : joinSlash (cs.map String.data) with
  | nil => rfl
  | cons b l2 =>
    cases l2 with
    | nil => rfl
    | cons c l3 => rfl

theorem normalizePathInner_mkAbsPath (cwd : String) (cs : List String) (hne : cs ≠ [])
    (hg : ∀ c ∈ cs, GoodComp c = true) :
    normalizePathInner cwd Platform.posix (mkAbsPath cs) = Except.ok (mkAbsPath cs) := by
  have hmem : (jsSplit (mkAbsPath cs) (fun c => c == '/')).getLastD "" ∈ cs := by
    rw [jsSplit_mkAbsPath cs hne hg, List.getLastD_cons]
    exact getLastD_mem cs "" hne
  have hinv : (((jsSplit (mkAbsPath cs) (fun c => c == '/')).getLastD "").data.any
      (fun c => c == '<' || c == '>' || c == '"' || c == '|' || c == '?' ||
        c == '*')) = false := by
    apply List.any_eq_false.mpr
    intro ch hch
    have h7 := goodComp_chars _ (hg _ hmem) ch hch
    simp [h7.2.1, h7.2.2.1, h7.2.2.2.1, h7.2.2.2.2.1, h7.2.2.2.2.2.1, h7.2.2.2.2.2.2]
  unfold normalizePathInner
  simp only [reduceIte, hinv, hasDrivePrefix_mkAbsPath, backslashToSlash_mkAbsPath cs hg]
  rfl

theorem normalizePath_mkAbsPath (cwd : String) (cs : List String) (hne : cs ≠ [])
    (hg : ∀ c ∈ cs, GoodComp c = true) :
    normalizePath cwd Platform.posix (mkAbsPath cs) = Except.ok (mkAbsPath cs) := by
  unfold normalizePath
  rw [show ((mkAbsPath cs == "") = false) from rfl]
  rw [normalizePathInner_mkAbsPath cwd cs hne hg]
  rfl

theorem commonPrefixLen_le : ∀ as bs : List String, commonPrefixLen as bs ≤ as.length
  | [], _ => by simp [commonPrefixLen]
  | _ :: _, [] => by simp [commonPrefixLen]
  | a :: as, b :: bs => by
      unfold commonPrefixLen
      split
      · simpa using commonPrefixLen_le as bs
      · simp

theorem commonPrefixLen_eq_iff : ∀ as bs : List String,
    commonPrefixLen as bs = as.length ↔ as <+: bs
  | [], bs => by simp [commonPrefixLen]
  | a :: as, [] => by
      simp only [commonPrefixLen]
      constructor
      · intro h; exact absurd h.symm (by simp)
      · intro h; exact absurd h (by simp)
  | a :: as, b :: bs => by
      unfold commonPrefixLen
      rw [List.cons_prefix_cons]
      split
      · next hab =>
        have := commonPrefixLen_eq_iff as bs
        simp [eq_of_beq hab, this]
      · next hab =>
        constructor
        · intro h; exact absurd h.symm (by simp)
        · intro h
          exact absurd h.1 (by intro he; rw [he] at hab; exact hab (by simp))

theorem mkAbsPath_inj (as bs : List String) (hA : as ≠ []) (hgA : ∀ c ∈ as, GoodComp c = true)
    (hB : bs ≠ []) (hgB : ∀ c ∈ bs, GoodComp c = true)
    (h : mkAbsPath as = mkAbsPath bs) : as = bs := by
  have h2 : jsSplit (mkAbsPath as) (fun c => c == '/') =
      jsSplit (mkAbsPath bs) (fun c => c == '/') := by rw [h]
  rw [jsSplit_mkAbsPath as hA hgA, jsSplit_mkAbsPath bs hB hgB] at h2
  exact List.tail_eq_of_cons_eq h2

theorem jsJoin_cons_data (d : String) (rest : List String) :
    ∃ t, (jsJoin "/" (d :: rest)).data = d.data ++ t := by
  cases rest with
  | nil => exact ⟨[], by simp [jsJoin]⟩
  | cons y r =>
    refine ⟨'/' :: (jsJoin "/" (y :: r)).data, ?_⟩
    show (d ++ "/" ++ jsJoin "/" (y :: r)).data = _
    rw [String.data_append, String.data_append]
    simp

theorem posixRelative_mkAbsPath (cwd : String) (as bs : List String)
    (hA : as ≠ []) (hgA : ∀ c ∈ as, GoodComp c = true)
    (hB : bs ≠ []) (hgB : ∀ c ∈ bs, GoodComp c = true)
    (hne : as ≠ bs) :
    posixRelative cwd (mkAbsPath as) (mkAbsPath bs) =
      jsJoin "/" (List.replicate (as.length - commonPrefixLen as bs) ".." ++
        bs.drop (commonPrefixLen as bs)) := by
  have hmne : (mkAbsPath as == mkAbsPath bs) = false :=
    beq_eq_false_iff_ne.mpr (fun h => hne (mkAbsPath_inj as bs hA hgA hB hgB h))
  unfold posixRelative
  rw [hmne]
  simp only [Bool.false_eq_true, if_false]
  rw [posixResolve_mkAbsPath cwd as hA hgA, posixResolve_mkAbsPath cwd bs hB hgB]
  rw [hmne]
  simp only [Bool.false_eq_true, if_false]
  rw [splitFilter_mkAbsPath as hA hgA, splitFilter_mkAbsPath bs hB hgB]

theorem beq_symm_false {a b : Char} (h : (a == b) = false) : (b == a) = false := by
  rw [beq_eq_false_iff_ne] at h ⊢
  exact fun he => h he.symm

theorem isParentPath_mkAbsPath (cwd : String) (as bs : List String)
    (hA : as ≠ []) (hgA : ∀ c ∈ as, GoodComp c = true)
    (hB : bs ≠ []) (hgB : ∀ c ∈ bs, GoodComp c = true) :
    isParentPath cwd Platform.posix (mkAbsPath as) (mkAbsPath bs) =
      Except.ok (decide (as <+: bs ∧ ¬as = bs)) := by
  unfold isParentPath
  rw [normalizePath_mkAbsPath cwd as hA hgA, normalizePath_mkAbsPath cwd bs hB hgB]
  dsimp only
  by_cases heq : as = bs
  · subst heq
    rw [show (mkAbsPath as == mkAbsPath as) = true from beq_self_eq_true _]
    simp
  · have hmne : (mkAbsPath as == mkAbsPath bs) = false :=
      beq_eq_false_iff_ne.mpr (fun h => heq (mkAbsPath_inj as bs hA hgA hB hgB h))
    rw [hmne]
    simp only [Bool.false_eq_true, if_false]
    rw [posixRelative_mkAbsPath cwd as bs hA hgA hB hgB heq]
    by_cases hpre : as <+: bs
    · have hcom : commonPrefixLen as bs = as.length :=
        (commonPrefixLen_eq_iff as bs).mpr hpre
      rw [hcom]
      simp only [Nat.sub_self, List.replicate, List.nil_append]
      have hlt : as.length < bs.length :=
        lt_of_le_of_ne hpre.length_le (fun h => heq (hpre.eq_of_length h))
      obtain ⟨d, rest, hd⟩ := List.exists_cons_of_ne_nil
        (show bs.drop as.length ≠ [] from
          fun h => absurd (List.drop_eq_nil_iff.mp h) (by omega))
      rw [hd]
      have hdg : GoodComp d = true := hgB d (List.mem_of_mem_drop
        (show d ∈ bs.drop as.length from by rw [hd]; exact List.mem_cons_self d rest))
      obtain ⟨dc, dcs, hdc⟩ := List.exists_cons_of_ne_nil (goodComp_ne_nil d hdg)
      obtain ⟨t, ht⟩ := jsJoin_cons_data d rest
      have hrne : (jsJoin "/" (d :: rest) == "") = false :=
        beq_eq_false_iff_ne.mpr (fun h => by
          have h2 := congrArg String.data h
          rw [ht, hdc] at h2
          simp at h2)
      have hnd : (dc == '.') = false := goodComp_head_not_dot d dc dcs hdg hdc
      have hns : (dc == '/') = false := by
        have := (goodComp_chars d hdg dc (by rw [hdc]; exact List.mem_cons_self dc dcs)).1
        unfold isSepChar at this
        exact (Bool.or_eq_false_iff.mp this).1
      have hr2 : jsStartsWith (jsJoin "/" (d :: rest)) ".." = false := by
        unfold jsStartsWith
        rw [ht, hdc]
        show (('.' == dc) && _) = false
        rw [beq_symm_false hnd]
        rfl
      have hr3 : posixIsAbsolute (jsJoin "/" (d :: rest)) = false := by
        unfold posixIsAbsolute jsStartsWith
        rw [ht, hdc]
        show (('/' == dc) && _) = false
        rw [beq_symm_false hns]
        rfl
      rw [decide_eq_true (show as <+: bs ∧ ¬as = bs from ⟨hpre, heq⟩)]
      simp [bne, hrne, hr2, hr3]
    · have hcomlt : commonPrefixLen as bs < as.length :=
        lt_of_le_of_ne (commonPrefixLen_le as bs)
          (fun h => hpre ((commonPrefixLen_eq_iff as bs).mp h))
      obtain ⟨k, hk⟩ : ∃ k, as.length - commonPrefixLen as bs = k + 1 :=
        ⟨as.length - commonPrefixLen as bs - 1, by omega⟩
      rw [hk, List.replicate_succ]
      obtain ⟨t, ht⟩ := jsJoin_cons_data ".."
        (List.replicate k ".." ++ bs.drop (commonPrefixLen as bs))
      have hr2 : jsStartsWith (jsJoin "/"
          (".." :: (List.replicate k ".." ++ bs.drop (commonPrefixLen as bs)))) ".." = true := by
        unfold jsStartsWith
        rw [ht]
        show (('.' == '.') && (('.' == '.') && List.isPrefixOf [] t)) = true
        simp [List.isPrefixOf]
      rw [decide_eq_false (fun h => hpre h.1)]
      simp [hr2]

theorem dupCheckLoop_none_iff : ∀ (l seen : List String),
    dupCheckLoop seen l = none ↔ l.Nodup ∧ ∀ x ∈ l, x ∉ seen
  | [], seen => by simp [dupCheckLoop]
  | p :: rest, seen => by
      unfold dupCheckLoop
      cases hc : seen.contains p with
      | true =>
        simp only [if_true]
        constructor
        · intro h; exact absurd h (by simp)
        · intro h
          exact absurd (List.elem_iff.mp hc) (h.2 p (List.mem_cons_self p rest))
      | false =>
        have hpn : p ∉ seen := by
          intro hm
          have hc2 : List.elem p seen = false := hc
          rw [List.elem_iff.mpr hm] at hc2
          exact Bool.noConfusion hc2
        simp only [Bool.false_eq_true, if_false]
        rw [dupCheckLoop_none_iff rest (seen ++ [p])]
        constructor
        · rintro ⟨hnd, hmem⟩
          refine ⟨List.nodup_cons.mpr ⟨?_, hnd⟩, ?_⟩
          · intro hm
            exact absurd (List.mem_append.mpr (Or.inr (by simp))) (hmem p hm)
          · intro x hx
            rcases List.mem_cons.mp hx with rfl | hx2
            · exact hpn
            · exact fun hs => (hmem x hx2) (List.mem_append.mpr (Or.inl hs))
        · rintro ⟨hnd, hmem⟩
          obtain ⟨hpr, hnd2⟩ := List.nodup_cons.mp hnd
          refine ⟨hnd2, ?_⟩
          intro x hx hs
          rcases List.mem_append.mp hs with h1 | h2
          · exact (hmem x (List.mem_cons_of_mem p hx)) h1
          · rw [List.mem_singleton.mp h2] at hx
            exact hpr hx

theorem overlapWith_mkAbsPath (cwd : String) (as : List String)
    (hA : as ≠ []) (hgA : ∀ c ∈ as, GoodComp c = true) :
    ∀ rest : List (List String),
    (∀ cs ∈ rest, cs ≠ [] ∧ ∀ c ∈ cs, GoodComp c = true) →
    (overlapWith cwd Platform.posix (mkAbsPath as) (rest.map mkAbsPath) = Except.ok () ↔
      ∀ bs ∈ rest, ¬(as <+: bs ∧ ¬as = bs) ∧ ¬(bs <+: as ∧ ¬bs = as))
  | [], _ => by simp [overlapWith]
  | bs :: rest, h => by
      obtain ⟨hBne, hgB⟩ := h bs (List.mem_cons_self bs rest)
      have hrest := fun z hz => h z (List.mem_cons_of_mem bs hz)
      have ih := overlapWith_mkAbsPath cwd as hA hgA rest hrest
      show (match isParentPath cwd Platform.posix (mkAbsPath as) (mkAbsPath bs) with
        | Except.error e => Except.error e
        | Except.ok b1 =>
          match isParentPath cwd Platform.posix (mkAbsPath bs) (mkAbsPath as) with
          | Except.error e => Except.error e
          | Except.ok b2 =>
            if b1 || b2 then
              Except.error (McpError.mk ErrorCode.invalidRequest
                (toString "Vault paths cannot overlap: " ++ toString (mkAbsPath as) ++
                  toString " and " ++ toString (mkAbsPath bs) ++ toString ""))
            else overlapWith cwd Platform.posix (mkAbsPath as) (rest.map mkAbsPath)) =
          Except.ok () ↔ _
      rw [isParentPath_mkAbsPath cwd as bs hA hgA hBne hgB,
        isParentPath_mkAbsPath cwd bs as hBne hgB hA hgA]
      dsimp only
      by_cases h1 : as <+: bs ∧ ¬as = bs
      · rw [decide_eq_true h1]
        simp only [Bool.true_or, if_true]
        constructor
        · intro hx; exact absurd hx (by simp)
        · intro hx
          exact absurd h1 ((hx bs (List.mem_cons_self bs rest)).1)
      · rw [decide_eq_false h1]
        by_cases h2 : bs <+: as ∧ ¬bs = as
        · rw [decide_eq_true h2]
          simp only [Bool.or_true, if_true]
          constructor
          · intro hx; exact absurd hx (by simp)
          · intro hx
            exact absurd h2 ((hx bs (List.mem_cons_self bs rest)).2)
        · rw [decide_eq_false h2]
          simp only [Bool.or_self, Bool.false_eq_true, if_false]
          rw [ih]
          constructor
          · intro hx
            intro z hz
            rcases List.mem_cons.mp hz with rfl | hz2
            · exact ⟨h1, h2⟩
            · exact hx z hz2
          · intro hx z hz
            exact hx z (List.mem_cons_of_mem bs hz)

theorem pairwiseOverlap_mkAbsPath (cwd : String) :
    ∀ css : List (List String),
    (∀ cs ∈ css, cs ≠ [] ∧ ∀ c ∈ cs, GoodComp c = true) →
    (pairwiseOverlap cwd Platform.posix (css.map mkAbsPath) = Except.ok () ↔
      css.Pairwise (fun as bs => ¬(as <+: bs ∧ ¬as = bs) ∧ ¬(bs <+: as ∧ ¬bs = as)))
  | [], _ => by simp [pairwiseOverlap]
  | as :: rest, h => by
      obtain ⟨hAne, hgA⟩ := h as (List.mem_cons_self as rest)
      have hrest := fun z hz => h z (List.mem_cons_of_mem as hz)
      have hov := overlapWith_mkAbsPath cwd as hAne hgA rest hrest
      have ih := pairwiseOverlap_mkAbsPath cwd rest hrest
      show (match overlapWith cwd Platform.posix (mkAbsPath as) (rest.map mkAbsPath) with
        | Except.error e => Except.error e
        | Except.ok _ => pairwiseOverlap cwd Platform.posix (rest.map mkAbsPath)) =
          Except.ok () ↔ _
      rw [List.pairwise_cons]
      cases hcase : overlapWith cwd Platform.posix (mkAbsPath as) (rest.map mkAbsPath) with
      | error e =>
        rw [hcase] at hov
        dsimp only
        constructor
        · intro hx; exact absurd hx (by simp)
        · rintro ⟨hhead, _⟩
          have : (Except.error e : Except McpError Unit) = Except.ok () := hov.mpr hhead
          exact absurd this (by simp)
      | ok u =>
        cases u
        rw [hcase] at hov
        dsimp only
        rw [ih]
        constructor
        · intro hx
          exact ⟨hov.mp rfl, hx⟩
        · rintro ⟨_, hx⟩
          exact hx

/-- C6: checkPathOverlap throws on the claim's overlapping example and not on
the disjoint one; and for configured vault paths built from clean components
(non-empty, separator-free, not dot-prefixed, no Windows-invalid characters)
it returns normally exactly when no two paths are identical and no path's
component list is a strict prefix of another's (the ancestor relation, in
either direction). -/
theorem c6_checkPathOverlap_iff :
    checkPathOverlap "/cwd" Platform.posix ["/a/b", "/a/b/c"] ≠ Except.ok () ∧
    checkPathOverlap "/cwd" Platform.posix ["/a/b", "/a/e"] = Except.ok () ∧
    ∀ (cwd : String) (css : List (List String)),
      (∀ cs ∈ css, cs ≠ [] ∧ ∀ c ∈ cs, GoodComp c = true) →
      (checkPathOverlap cwd Platform.posix (css.map mkAbsPath) = Except.ok () ↔
        css.Nodup ∧ css.Pairwise (fun as bs =>
          ¬(as <+: bs ∧ ¬as = bs) ∧ ¬(bs <+: as ∧ ¬bs = as))) := by
  refine ⟨by decide, by decide, ?_⟩
  intro cwd css h
  have hnorm : (css.map mkAbsPath).map (fun p => stripTrailingSeps (posixNormalize p)) =
      css.map mkAbsPath := by
    rw [List.map_map]
    apply List.map_congr_left
    intro cs hcs
    obtain ⟨hne, hg⟩ := h cs hcs
    show stripTrailingSeps (posixNormalize (mkAbsPath cs)) = mkAbsPath cs
    rw [posixNormalize_mkAbsPath cs hne hg, stripTrailingSeps_mkAbsPath cs hne hg]
  have hnodup_iff : (css.map mkAbsPath).Nodup ↔ css.Nodup :=
    ⟨fun hn => hn.of_map mkAbsPath,
     fun hn => hn.map_on (fun x hx y hy hxy =>
       mkAbsPath_inj x y (h x hx).1 (h x hx).2 (h y hy).1 (h y hy).2 hxy)⟩
  unfold checkPathOverlap
  rw [hnorm]
  dsimp only
  cases hdup : dupCheckLoop [] (css.map mkAbsPath) with
  | some d =>
    have hnn : ¬ (css.map mkAbsPath).Nodup := by
      intro hn
      have h2 := (dupCheckLoop_none_iff (css.map mkAbsPath) []).mpr ⟨hn, by simp⟩
      rw [hdup] at h2
      exact Option.noConfusion h2
    dsimp only
    constructor
    · intro hx; exact absurd hx (by simp)
    · rintro ⟨hnd, _⟩
      exact absurd (hnodup_iff.mpr hnd) hnn
  | none =>
    have hnd : css.Nodup :=
      hnodup_iff.mp ((dupCheckLoop_none_iff (css.map mkAbsPath) []).mp hdup).1
    dsimp only
    rw [pairwiseOverlap_mkAbsPath cwd css h]
    simp [hnd]

/-- C6 counterexample to the unrestricted claim text: "/a" is an ancestor
directory of "/a/..b" (its component list is a strict prefix), yet
checkPathOverlap accepts the pair, because path.relative("/a", "/a/..b")
is "..b", which startsWith("..") even though it is a plain descent. -/
theorem c6_counterexample_dotdot_component :
    checkPathOverlap "/cwd" Platform.posix ["/a", "/a/..b"] = Except.ok () ∧
    mkAbsPath ["a"] = "/a" ∧ mkAbsPath ["a", "..b"] = "/a/..b" ∧
    ["a"] <+: ["a", "..b"] ∧ ["a"] ≠ ["a", "..b"] := by
  refine ⟨by decide, rfl, rfl, ⟨["..b"], rfl⟩, by decide⟩

/-- Witness: the iff of c6_checkPathOverlap_iff applied to the concrete
clean configuration ["/a/b", "/c"]. -/
theorem c6_checkPathOverlap_iff_witness :
    checkPathOverlap "/w" Platform.posix ([["a", "b"], ["c"]].map mkAbsPath) =
      Except.ok () :=
  (c6_checkPathOverlap_iff.2.2 "/w" [["a", "b"], ["c"]] (by decide)).mpr (by decide)

/-! ### C3: the backup/rollback protocol of editNote -/

theorem fsGet_fsSet_self : ∀ (fs : FS) (p c : String), fsGet (fsSet fs p c) p = some c
  | [], p, c => by simp [fsSet, fsGet]
  | (q, d) :: rest, p, c => by
      unfold fsSet
      cases hq : (q == p) with
      | true => simp [fsGet, hq]
      | false =>
        simp only [Bool.false_eq_true, if_false]
        show (if q == p then some d else fsGet (fsSet rest p c) p) = some c
        rw [hq]
        simp only [Bool.false_eq_true, if_false]
        exact fsGet_fsSet_self rest p c

theorem fsGet_fsSet_ne : ∀ (fs : FS) (p q c : String), q ≠ p →
    fsGet (fsSet fs q c) p = fsGet fs p
  | [], p, q, c, h => by simp [fsSet, fsGet, beq_eq_false_iff_ne.mpr h]
  | (r, d) :: rest, p, q, c, h => by
      unfold fsSet
      cases hr : (r == q) with
      | true =>
        have hrp : (r == p) = false :=
          beq_eq_false_iff_ne.mpr (by rw [eq_of_beq hr]; exact h)
        simp only [if_true]
        show (if r == p then some c else fsGet rest p) =
          (if r == p then some d else fsGet rest p)
        rw [hrp]
        simp
      | false =>
        simp only [Bool.false_eq_true, if_false]
        show (if r == p then some d else fsGet (fsSet rest q c) p) =
          (if r == p then some d else fsGet rest p)
        rw [fsGet_fsSet_ne rest p q c h]

theorem fsGet_fsRemove_self : ∀ (fs : FS) (p : String), fsGet (fsRemove fs p) p = none
  | [], _ => rfl
  | (q, d) :: rest, p => by
      show fsGet (List.filter (fun e => e.1 != p) ((q, d) :: rest)) p = none
      rw [List.filter_cons]
      cases hq : (q == p) with
      | true =>
        simp only [bne, hq, Bool.not_true, Bool.false_eq_true, if_false]
        exact fsGet_fsRemove_self rest p
      | false =>
        simp only [bne, hq, Bool.not_false, if_true]
        show (if q == p then some d else fsGet (fsRemove rest p) p) = none
        rw [hq]
        simp only [Bool.false_eq_true, if_false]
        exact fsGet_fsRemove_self rest p

theorem fsGet_fsRemove_ne : ∀ (fs : FS) (p q : String), q ≠ p →
    fsGet (fsRemove fs q) p = fsGet fs p
  | [], _, _, _ => rfl
  | (r, d) :: rest, p, q, h => by
      show fsGet (List.filter (fun e => e.1 != q) ((r, d) :: rest)) p =
        (if r == p then some d else fsGet rest p)
      rw [List.filter_cons]
      cases hr : (r == q) with
      | true =>
        have hrp : (r == p) = false :=
          beq_eq_false_iff_ne.mpr (by rw [eq_of_beq hr]; exact h)
        simp only [bne, hr, Bool.not_true, Bool.false_eq_true, if_false]
        have hrec : fsGet (List.filter (fun e => !(e.1 == q)) rest) p = fsGet rest p :=
          fsGet_fsRemove_ne rest p q h
        rw [hrec, hrp]
        simp
      | false =>
        simp only [bne, hr, Bool.not_false, if_true]
        show (if r == p then some d else fsGet (fsRemove rest q) p) = _
        rw [fsGet_fsRemove_ne rest p q h]

theorem string_ne_backup (f ts : String) : f ≠ f ++ "." ++ ts ++ ".backup" := by
  intro h
  have h2 := congrArg (fun s : String => s.data.length) h
  simp only [String.data_append, List.length_append, List.length_cons,
    List.length_nil] at h2
  omega

/-- C3: for a note holding "A", when the write step of editNote fails the
catch block restores the content from the backup and deletes the backup
(the surfaced error wraps the write failure); when the rollback copy itself
also fails, the backup file is preserved with the snapshot "A" and the
surfaced error is the combined InternalError naming the original write
failure, the rollback failure and the backup path. -/
theorem c3_editNote_write_failure_rollback (env : FSEnv) (cwd : String)
    (platform : Platform) (lib : YamlLib) (vaultPath notePath sp : String)
    (fullPath backupPath : String) (operation : EditOperation)
    (content fc : String) (timestamp : Nat) (fs0 : FS) (w : String)
    (rco rbu : Option String) (res : Except McpError FileOperationResult) (fsF : FS)
    (hsan : ensureMarkdownExtension cwd platform notePath = Except.ok sp)
    (hfp : fullPath = posixJoin vaultPath sp)
    (hbp : backupPath = fullPath ++ "." ++ toString timestamp ++ ".backup")
    (hnote : fsGet fs0 fullPath = some "A")
    (hbk : fsGet fs0 backupPath = none)
    (hcomp : computeFinalContent lib operation "A" content = Except.ok fc)
    (hout : editNote env cwd platform lib (FailSpec.mk none none (some w) none rco rbu)
      vaultPath notePath operation content timestamp fs0 = (res, fsF)) :
    (rco = none ∧ rbu = none →
      fsGet fsF fullPath = some "A" ∧ fsGet fsF backupPath = none ∧
      res = Except.error (handleFsError w (opName operation ++ " note"))) ∧
    (∀ r, rco = some r →
      fsGet fsF backupPath = some "A" ∧ fsGet fsF fullPath = some "A" ∧
      res = Except.error (McpError.mk ErrorCode.internalError
        ("Failed to rollback changes. Original error: " ++ w ++
          ". Rollback error: " ++ r ++ ". Backup preserved at " ++ backupPath))) := by
  subst hfp
  subst hbp
  have hne : posixJoin vaultPath sp ≠
      posixJoin vaultPath sp ++ "." ++ toString timestamp ++ ".backup" :=
    string_ne_backup _ _
  rw [show editNote env cwd platform lib (FailSpec.mk none none (some w) none rco rbu)
        vaultPath notePath operation content timestamp fs0 =
      editNoteCatch (FailSpec.mk none none (some w) none rco rbu) operation
        (posixJoin vaultPath sp)
        (posixJoin vaultPath sp ++ "." ++ toString timestamp ++ ".backup")
        (Thrown.fsErr w)
        (fsSet fs0 (posixJoin vaultPath sp ++ "." ++ toString timestamp ++ ".backup") "A")
    from by
      unfold editNote
      rw [hsan]
      dsimp only
      rw [show validateVaultPath env vaultPath (posixJoin vaultPath sp) =
        Except.ok () from rfl]
      rw [hnote]
      dsimp only
      rw [fsGet_fsSet_ne fs0 (posixJoin vaultPath sp)
        (posixJoin vaultPath sp ++ "." ++ toString timestamp ++ ".backup") "A"
        (Ne.symm hne)]
      rw [hnote]
      dsimp only [Option.getD]
      rw [hcomp]] at hout
  constructor
  · rintro ⟨rfl, rfl⟩
    unfold editNoteCatch at hout
    rw [fsGet_fsSet_self] at hout
    dsimp only [Option.isSome, Thrown.message] at hout
    rw [if_pos rfl] at hout
    have h1 := congrArg Prod.fst hout
    have h2 := congrArg Prod.snd hout
    dsimp only at h1 h2
    refine ⟨?_, ?_, ?_⟩
    · rw [← h2, fsGet_fsRemove_ne _ _ _ (Ne.symm hne), fsGet_fsSet_self]
      rfl
    · rw [← h2, fsGet_fsRemove_self]
    · rw [← h1]
  · intro r hr
    subst hr
    unfold editNoteCatch at hout
    rw [fsGet_fsSet_self] at hout
    dsimp only [Option.isSome, Thrown.message] at hout
    rw [if_pos rfl] at hout
    have h1 := congrArg Prod.fst hout
    have h2 := congrArg Prod.snd hout
    dsimp only at h1 h2
    refine ⟨?_, ?_, ?_⟩
    · rw [← h2, fsGet_fsSet_self]
    · rw [← h2, fsGet_fsSet_ne fs0 _ _ _ (Ne.symm hne), hnote]
    · rw [← h1]

/-- Witness: a concrete run with the write step failing and the rollback
succeeding leaves "A" in place and no backup file. -/
theorem c3_editNote_write_failure_rollback_witness :
    fsGet (editNote demoFSEnv "/cwd" Platform.posix miniYamlLib
      (FailSpec.mk none none (some "disk full") none none none)
      "/vault" "note" EditOperation.append "B" 99 [("/vault/note.md", "A")]).2
      "/vault/note.md" = some "A" ∧
    fsGet (editNote demoFSEnv "/cwd" Platform.posix miniYamlLib
      (FailSpec.mk none none (some "disk full") none none none)
      "/vault" "note" EditOperation.append "B" 99 [("/vault/note.md", "A")]).2
      "/vault/note.md.99.backup" = none := by
  have h := (c3_editNote_write_failure_rollback demoFSEnv "/cwd" Platform.posix
    miniYamlLib "/vault" "note" "note.md" "/vault/note.md" "/vault/note.md.99.backup"
    EditOperation.append "B" ("A" ++ "\n\n" ++ "B") 99 [("/vault/note.md", "A")]
    "disk full" none none _ _ (by decide) (by decide) (by decide) (by decide)
    (by decide) (by decide) rfl).1 ⟨rfl, rfl⟩
  exact ⟨h.1, h.2.1⟩

end ObsidianMcp
